import Mathlib

/-!
Verification of the core algorithms of the mcp-language-server repository
(workspace watcher, glob matcher, exclusion policy, debounce coalescer,
symbol-tree search, bracket range extension, windowed renderer, text
extraction, and the tool-facing not-found behaviour).

The Go sources are shallowly embedded: pure Go functions become Lean
functions; Go strings are modelled as `List Char` (named `GoStr`) so that
every operation is structurally recursive and kernel-computable; Go
`uint32` arithmetic is modelled on `Nat` with explicit wraparound where
overflow can occur; fallible code returns `Except`.  Byte-indexed Go
string operations are modelled at the character level (all characters the
algorithms inspect are ASCII, where byte and character indices coincide).
-/

/-- A Go string, modelled as its list of characters. -/
abbrev GoStr := List Char

/-- Conversion from a Lean string literal to the Go string model. -/
def str (s : String) : GoStr := s.toList

/- ---------------------------------------------------------------------
Go standard-library string helpers used by the embedded code.
--------------------------------------------------------------------- -/

/-- Go `strings.HasPrefix(s, pre)`. -/
def goHasPre : GoStr → GoStr → Bool
  | _, [] => true
  | [], _ :: _ => false
  | c :: s, d :: p => c = d && goHasPre s p

/-- Go `strings.HasSuffix(s, suf)`. -/
def goHasSuf (s suf : GoStr) : Bool :=
  goHasPre s.reverse suf.reverse

/-- Go `strings.TrimPrefix(s, pre)`: drop `pre` from the front when present. -/
def goTrimPre (s pre : GoStr) : GoStr :=
  if goHasPre s pre then s.drop pre.length else s

/-- Worker for `goSplitOn`, structurally recursive on a fuel argument so
that the kernel can evaluate it (the fuel is always sufficient: every step
consumes at least one character of `s`). -/
def goSplitOnFuel (sep : GoStr) : Nat → GoStr → GoStr → List GoStr
  | _, [], acc => [acc.reverse]
  | 0, s, acc => [acc.reverse ++ s]
  | fuel + 1, c :: rest, acc =>
    if goHasPre (c :: rest) sep then
      acc.reverse :: goSplitOnFuel sep fuel (rest.drop (sep.length - 1)) []
    else
      goSplitOnFuel sep fuel rest (c :: acc)

/-- Go `strings.Split(s, sep)` for non-empty `sep` (the embedded code never
splits on an empty separator): the pieces of `s` around each left-to-right
non-overlapping occurrence of `sep`. -/
def goSplitOn (s sep : GoStr) : List GoStr :=
  if sep.isEmpty then s.map (fun c => [c]) else goSplitOnFuel sep s.length s []

/-- Go `strings.Contains(s, sub)`: `sub` occurs as a substring of `s`. -/
def goContains (s sub : GoStr) : Bool :=
  sub.isEmpty || (goSplitOn s sub).length != 1

/-- Go `strings.SplitN(s, sep, 2)`: split around the first occurrence of
`sep` only, the second piece keeping any further occurrences. -/
def goSplitN2 (s sep : GoStr) : List GoStr :=
  match goSplitOn s sep with
  | [] => []
  | x :: rest => if rest.isEmpty then [x] else [x, List.intercalate sep rest]

/- ---------------------------------------------------------------------
C8: the glob evaluator (src/internal/watcher/watcher.go, matchesGlob and
matchesSimpleGlob).
--------------------------------------------------------------------- -/

/-- Worker for the platform glob fallback, structurally recursive on fuel
(the fuel is always sufficient: every step shortens the pattern or the
path). -/
def goMatchFuel : Nat → GoStr → GoStr → Bool
  | 0, p, s => p.isEmpty && s.isEmpty
  | fuel + 1, p, s =>
    match p, s with
    | [], rest => rest.isEmpty
    | c :: p2, rest =>
      if c = '*' then
        goMatchFuel fuel p2 rest ||
          (match rest with
           | [] => false
           | d :: s2 => if d = '/' then false else goMatchFuel fuel (c :: p2) s2)
      else match rest with
        | [] => false
        | d :: s2 => if c = '?' then d != '/' && goMatchFuel fuel p2 s2
                     else c = d && goMatchFuel fuel p2 s2

/-- The platform glob fallback (`filepath.Match`) reached only by patterns
with no `**`, no brace alternation and no `*.` prefix: `*` matches any run
of non-separator characters, `?` one non-separator character, other
characters literally.  Character classes and escapes of the platform
matcher are not modelled; no pattern of the specification's test vectors
reaches this fallback. -/
def goMatch (p s : GoStr) : Bool :=
  goMatchFuel (p.length + s.length + 1) p s

/-- matchesSimpleGlob from src/internal/watcher/watcher.go lines 348-418:
handles `**/` prefixes, other `**` wildcards, `*.` extension patterns, and
falls back to the platform matcher. -/
def matchesSimpleGlob (pattern path : GoStr) : Bool :=
  if goHasPre pattern (str "**/") then
    let rest := goTrimPre pattern (str "**/")
    if goHasPre rest (str "*.") then
      let ext := goTrimPre rest (str "*")
      goHasSuf path ext
    else if goHasSuf path rest then true
    else
      let pathComponents := goSplitOn path (str "/")
      (List.range pathComponents.length).any fun i =>
        goHasSuf (List.intercalate (str "/") (pathComponents.drop i)) rest
  else
    -- the interior-`**` block falls through (no return) for patterns that
    -- split into three or more segments
    let starStarResult : Option Bool :=
      if goContains pattern (str "**") then
        let parts := goSplitOn pattern (str "**")
        let p0 := parts.headD []
        if !goHasPre path p0 && !p0.isEmpty then some false
        else if parts.length = 2 && p0.isEmpty then
          some (goHasSuf path (parts.getLastD []))
        else
          let remaining := goTrimPre path p0
          if parts.length = 2 then some (goHasSuf remaining (parts.getLastD []))
          else none
      else none
    match starStarResult with
    | some b => b
    | none =>
      if goHasPre pattern (str "*.") then
        let ext := goTrimPre pattern (str "*")
        goHasSuf path ext
      else goMatch pattern path

/-- matchesGlob from src/internal/watcher/watcher.go lines 319-345:
brace alternation `prefix\x7bext1,ext2,...\x7dsuffix` expanded into one
simple pattern per alternative, otherwise simple matching. -/
def matchesGlob (pattern path : GoStr) : Bool :=
  if goContains pattern (str "\x7b") && goContains pattern (str "\x7d") then
    let parts := goSplitN2 pattern (str "\x7b")
    if parts.length = 2 then
      let pre := parts.headD []
      let extPart := goSplitN2 (parts.getLastD []) (str "\x7d")
      if extPart.length = 2 then
        let extensions := goSplitOn (extPart.headD []) (str ",")
        let suffix := extPart.getLastD []
        extensions.any fun ext => matchesSimpleGlob (pre ++ ext ++ suffix) path
      else matchesSimpleGlob pattern path
    else matchesSimpleGlob pattern path
  else matchesSimpleGlob pattern path

/-- C8: the glob evaluator satisfies the specified test vectors:
`**/*.go` matches `a/b/c.go`; `*.\x7bgo,mod,sum\x7d` matches `go.sum`;
`*.go` matches `main.go` and does not match `main.goo`. -/
theorem matchesGlob_test_vectors :
    matchesGlob (str "**/*.go") (str "a/b/c.go") = true ∧
    matchesGlob (str "*.\x7bgo,mod,sum\x7d") (str "go.sum") = true ∧
    matchesGlob (str "*.go") (str "main.go") = true ∧
    matchesGlob (str "*.go") (str "main.goo") = false := by
  refine ⟨?_, ?_, ?_, ?_⟩ <;> decide

/- ---------------------------------------------------------------------
Go path helpers (path/filepath) used by the watcher's exclusion policy.
--------------------------------------------------------------------- -/

/-- Go `filepath.Base(path)` on a Unix platform: the last element of the
path after removing trailing slashes ("." for the empty path, "/" when the
path consists only of separators). -/
def goBase (path : GoStr) : GoStr :=
  if path.isEmpty then str "."
  else
    let p := (path.reverse.dropWhile (fun c => c = '/')).reverse
    if p.isEmpty then str "/"
    else (goSplitOn p (str "/")).getLastD p

/-- Worker for `goExt`: walk the reversed path, collecting characters of
the final element until the first dot (returning the extension including
the dot) or a separator / the start of the path (no extension). -/
def goExtRev : GoStr → GoStr → GoStr
  | [], _ => []
  | c :: rest, acc =>
    if c = '/' then []
    else if c = '.' then c :: acc
    else goExtRev rest (c :: acc)

/-- Go `filepath.Ext(path)`: the suffix beginning at the final dot in the
final slash-separated element of the path; empty if there is no dot. -/
def goExt (path : GoStr) : GoStr :=
  goExtRev path.reverse []

/-- Go `strings.ToLower` restricted to ASCII (every extension the policy
compares against is ASCII). -/
def goToLower (s : GoStr) : GoStr :=
  s.map Char.toLower

/- ---------------------------------------------------------------------
C6: isPathWatched (src/internal/watcher/watcher.go lines 294-316), with
the registration store and the pattern matcher for plain string patterns.
--------------------------------------------------------------------- -/

/-- LSP `WatchKind` flag values (protocol.WatchCreate, protocol.WatchChange,
protocol.WatchDelete). -/
def watchCreate : Nat := 1

def watchChange : Nat := 2

def watchDelete : Nat := 4

/-- The full Create|Change|Delete event mask used as the watcher's default. -/
def watchKindFull : Nat := 7

/-- protocol.FileSystemWatcher restricted to plain string glob patterns
(RelativePattern base paths, which involve `filepath.Rel`, are not
exercised by any claim).  `kind = none` models a registration whose
`Kind` pointer is nil. -/
structure FileSystemWatcher where
  globPattern : GoStr
  kind : Option Nat
deriving DecidableEq, Repr

/-- matchesPattern (src/internal/watcher/watcher.go lines 421-457) for a
string pattern, i.e. the `basePath == ""` case: the pattern may match the
full path or just its base name. -/
def matchesPattern (path : GoStr) (pattern : GoStr) : Bool :=
  matchesGlob pattern path || matchesGlob pattern (goBase path)

/-- The registration loop of isPathWatched: the first registration whose
pattern matches decides (a nil kind defaulting to the full mask); falling
off the end of the loop yields `(false, 0)`. -/
def isPathWatchedLoop : List FileSystemWatcher → GoStr → Bool × Nat
  | [], _ => (false, 0)
  | reg :: rest, path =>
    if matchesPattern path reg.globPattern then
      (true, reg.kind.getD watchKindFull)
    else
      isPathWatchedLoop rest path

/-- isPathWatched from src/internal/watcher/watcher.go lines 294-316:
with no registrations everything is watched with the full mask; otherwise
the first matching registration decides. -/
def isPathWatched (registrations : List FileSystemWatcher) (path : GoStr) :
    Bool × Nat :=
  if registrations.isEmpty then (true, watchKindFull)
  else isPathWatchedLoop registrations path

/-- The loop agrees with a `find?` characterisation. -/
theorem isPathWatchedLoop_eq (registrations : List FileSystemWatcher) (path : GoStr) :
    isPathWatchedLoop registrations path =
      match registrations.find? (fun r => matchesPattern path r.globPattern) with
      | some reg => (true, reg.kind.getD watchKindFull)
      | none => (false, 0) := by
  induction registrations with
  | nil => rfl
  | cons reg rest ih =>
    rw [List.find?, isPathWatchedLoop]
    by_cases hm : matchesPattern path reg.globPattern
    · rw [hm]
      simp
    · simp only [Bool.not_eq_true] at hm
      rw [hm]
      simpa using ih

/-- C6: `isPathWatched` returns `(true, Create|Change|Delete)` on an empty
registration list; on a non-empty list it returns the mask of the first
registration (in registration order) whose pattern matches, defaulting a
nil kind to the full mask, and `(false, 0)` when no registration
matches. -/
theorem isPathWatched_spec (registrations : List FileSystemWatcher) (path : GoStr) :
    (registrations = [] → isPathWatched registrations path = (true, watchKindFull)) ∧
    (∀ reg, registrations.find? (fun r => matchesPattern path r.globPattern) = some reg →
      isPathWatched registrations path = (true, reg.kind.getD watchKindFull)) ∧
    (registrations ≠ [] →
      registrations.find? (fun r => matchesPattern path r.globPattern) = none →
      isPathWatched registrations path = (false, 0)) := by
  refine ⟨?_, ?_, ?_⟩
  · intro h
    subst h
    rfl
  · intro reg hfind
    cases registrations with
    | nil => simp [List.find?] at hfind
    | cons a l =>
      show isPathWatchedLoop (a :: l) path = _
      rw [isPathWatchedLoop_eq, hfind]
  · intro hne hfind
    cases registrations with
    | nil => exact absurd rfl hne
    | cons a l =>
      show isPathWatchedLoop (a :: l) path = _
      rw [isPathWatchedLoop_eq, hfind]

/-- Witness for C6 at a concrete registration list: the second
registration `*.go` (kind 2) is the first match for `src/main.go`, and a
path matching nothing yields `(false, 0)`, while the empty list watches
everything. -/
theorem isPathWatched_spec_witness :
    isPathWatched [] (str "a.bin") = (true, watchKindFull) ∧
    isPathWatched
      [⟨str "*.md", some 1⟩, ⟨str "*.go", some 2⟩, ⟨str "*.go", none⟩]
      (str "src/main.go") = (true, 2) ∧
    isPathWatched [⟨str "*.md", some 1⟩] (str "src/main.go") = (false, 0) := by
  refine ⟨(isPathWatched_spec [] (str "a.bin")).1 rfl, ?_, ?_⟩
  · have h := (isPathWatched_spec
      [⟨str "*.md", some 1⟩, ⟨str "*.go", some 2⟩, ⟨str "*.go", none⟩]
      (str "src/main.go")).2.1 ⟨str "*.go", some 2⟩ (by decide)
    rw [h]
    rfl
  · have h := (isPathWatched_spec [⟨str "*.md", some 1⟩]
      (str "src/main.go")).2.2 (by decide) (by decide)
    rw [h]

/- ---------------------------------------------------------------------
C7: the exclusion policy (src/internal/watcher/watcher.go lines 521-576
and 578-643).  The gitignore matcher is a black box in the source (an
external library); its verdict on the path is passed in as the boolean
`ignoreHit`, and the `os.Stat` result is passed in as `statSize`
(`none` models a stat failure).
--------------------------------------------------------------------- -/

/-- The static excluded-directory name set (watcher.go lines 522-535). -/
def excludedDirNames : List GoStr :=
  [str ".git", str "node_modules", str "dist", str "build", str "out",
   str "bin", str ".idea", str ".vscode", str ".cache", str "coverage",
   str "target", str "vendor"]

/-- The excluded file extension set (watcher.go lines 537-551). -/
def excludedFileExtensions : List GoStr :=
  [str ".swp", str ".swo", str ".tmp", str ".temp", str ".bak", str ".log",
   str ".o", str ".so", str ".dylib", str ".dll", str ".a", str ".exe",
   str ".lock"]

/-- The large-binary extension set (watcher.go lines 554-572). -/
def largeBinaryExtensions : List GoStr :=
  [str ".png", str ".jpg", str ".jpeg", str ".gif", str ".bmp", str ".ico",
   str ".zip", str ".tar", str ".gz", str ".rar", str ".7z", str ".pdf",
   str ".mp3", str ".mp4", str ".mov", str ".wav", str ".wasm"]

/-- Maximum file size to open, 5MB (watcher.go line 575). -/
def maxFileSize : Int := 5 * 1024 * 1024

/-- shouldExcludeDir from watcher.go lines 579-599: gitignore hit, dot
directory, or statically excluded directory name. -/
def shouldExcludeDir (ignoreHit : Bool) (dirPath : GoStr) : Bool :=
  if ignoreHit then true
  else
    let dirName := goBase dirPath
    if goHasPre dirName (str ".") && dirName ≠ str "." && dirName ≠ str ".." then
      true
    else
      excludedDirNames.contains dirName

/-- shouldExcludeFile from watcher.go lines 602-643: gitignore hit, dot
file, excluded or large-binary extension, trailing `~`, stat failure, or
size above the ceiling.  Note that it never inspects the names of the
directories containing the file. -/
def shouldExcludeFile (ignoreHit : Bool) (statSize : Option Int)
    (filePath : GoStr) : Bool :=
  if ignoreHit then true
  else
    let fileName := goBase filePath
    if goHasPre fileName (str ".") && fileName ≠ str "." && fileName ≠ str ".." then
      true
    else
      let ext := goToLower (goExt filePath)
      if excludedFileExtensions.contains ext || largeBinaryExtensions.contains ext then
        true
      else if goHasSuf filePath (str "~") then
        true
      else
        match statSize with
        | none => true
        | some size => size > maxFileSize

/-- C7 counterexample: the claim states that `shouldExcludeFile` returns
true for every file inside a `node_modules/` directory, but
`shouldExcludeFile` never looks at directory names: for the path
`ws/node_modules/lib.txt` (inside `node_modules/`), with no gitignore hit
and a successful small stat, it returns false. -/
theorem shouldExcludeFile_node_modules_counterexample :
    (goSplitOn (str "ws/node_modules/lib.txt") (str "/")).contains
      (str "node_modules") = true ∧
    shouldExcludeFile false (some 100) (str "ws/node_modules/lib.txt") = false := by
  refine ⟨?_, ?_⟩ <;> decide

/-- C7 (amended): files inside `node_modules/` are kept out by the
directory-level policy instead: `shouldExcludeDir` returns true for every
directory whose base name is `node_modules` (regardless of the gitignore
verdict), so the watcher's walk never descends into it, while
`shouldExcludeFile` itself does not consult directory names. -/
theorem shouldExcludeDir_node_modules (ignoreHit : Bool) (dirPath : GoStr)
    (h : goBase dirPath = str "node_modules") :
    shouldExcludeDir ignoreHit dirPath = true := by
  unfold shouldExcludeDir
  rw [h]
  cases ignoreHit <;> decide

/-- Witness for the amended C7 theorem at the concrete directory
`ws/node_modules`. -/
theorem shouldExcludeDir_node_modules_witness :
    goBase (str "ws/node_modules") = str "node_modules" ∧
    shouldExcludeDir false (str "ws/node_modules") = true :=
  ⟨by decide, shouldExcludeDir_node_modules false (str "ws/node_modules") (by decide)⟩

/- ---------------------------------------------------------------------
LSP positions and ranges (protocol.Position / protocol.Range).  The Go
fields are uint32; the embedded code converts them to int before use, so
they are modelled as Nat (a uint32 converted to a 64-bit int is always
non-negative, which makes the source's negative-index checks dead code).
--------------------------------------------------------------------- -/

/-- protocol.Position. -/
structure LspPos where
  line : Nat
  character : Nat
deriving DecidableEq, Repr

/-- protocol.Range (`endPos` embeds the Go field `End`, a reserved word in
Lean). -/
structure LspRange where
  start : LspPos
  endPos : LspPos
deriving DecidableEq, Repr

/- ---------------------------------------------------------------------
C10: getTextForRange (src/internal/tools/find-references.go lines
164-228).
--------------------------------------------------------------------- -/

/-- Append a newline to every line and concatenate (the Go code writes
each middle line followed by a newline into the string builder). -/
def joinLinesNl (ls : List GoStr) : GoStr :=
  (ls.map (fun l => l ++ ['\n'])).flatten

/-- getTextForRange from src/internal/tools/find-references.go lines
164-228: split the content on LF, validate the line indices, then extract
the range with character indices clamped to the enclosing line's length
(and, on a single-line range, the start clamped to the end); Go's
`line[a:b]` slicing becomes drop/take.  The negative-index clamps of the
source are dead code (uint32 inputs) and are omitted. -/
def getTextForRange (fileContent : GoStr) (targetRange : LspRange) :
    Except GoStr GoStr :=
  let lines := goSplitOn fileContent (str "\n")
  let startLine := targetRange.start.line
  let endLine := targetRange.endPos.line
  let startChar := targetRange.start.character
  let endChar := targetRange.endPos.character
  if startLine ≥ lines.length ∨ endLine ≥ lines.length ∨ startLine > endLine then
    .error (str "invalid range for file content")
  else if startLine = endLine then
    let line := lines.getD startLine []
    let startChar1 := if startChar > line.length then line.length else startChar
    let endChar1 := if endChar > line.length then line.length else endChar
    let startChar2 := if startChar1 > endChar1 then endChar1 else startChar1
    .ok ((line.drop startChar2).take (endChar1 - startChar2))
  else
    let firstLine := lines.getD startLine []
    let startChar1 := if startChar > firstLine.length then firstLine.length else startChar
    let middle := (lines.drop (startLine + 1)).take (endLine - (startLine + 1))
    let lastLine := lines.getD endLine []
    let endChar1 := if endChar > lastLine.length then lastLine.length else endChar
    .ok (firstLine.drop startChar1 ++ '\n' :: (joinLinesNl middle ++ lastLine.take endChar1))

/-- The extraction described by the claim, stated independently with `min`
for the clamping: characters are clamped to the enclosing line's length,
and on a single-line range a start beyond the end is clamped to the end. -/
def specExtractRange (lines : List GoStr) (r : LspRange) : GoStr :=
  let sLine := lines.getD r.start.line []
  let eLine := lines.getD r.endPos.line []
  let sc := min r.start.character sLine.length
  let ec := min r.endPos.character eLine.length
  if r.start.line = r.endPos.line then
    let sc2 := min sc ec
    (sLine.drop sc2).take (ec - sc2)
  else
    sLine.drop sc ++ '\n' ::
      (joinLinesNl ((lines.drop (r.start.line + 1)).take (r.endPos.line - (r.start.line + 1)))
        ++ eLine.take ec)

/-- Go's clamp `if a > b then b else a` is `min a b`. -/
theorem goClampEqMin (a b : Nat) : (if a > b then b else a) = min a b := by
  rw [Nat.min_def]
  split <;> split <;> omega

/-- C10: `getTextForRange` is total: whenever
`startLine ≤ endLine < lines.length` it succeeds and returns the clamped
extraction, and it returns an error exactly when a line index is out of
bounds or the start line exceeds the end line. -/
theorem getTextForRange_spec (fileContent : GoStr) (r : LspRange) :
    (∀ e, getTextForRange fileContent r = .error e →
      ¬(r.start.line ≤ r.endPos.line ∧
        r.endPos.line < (goSplitOn fileContent (str "\n")).length)) ∧
    (¬(r.start.line ≤ r.endPos.line ∧
        r.endPos.line < (goSplitOn fileContent (str "\n")).length) →
      getTextForRange fileContent r = .error (str "invalid range for file content")) ∧
    (r.start.line ≤ r.endPos.line →
      r.endPos.line < (goSplitOn fileContent (str "\n")).length →
      getTextForRange fileContent r =
        .ok (specExtractRange (goSplitOn fileContent (str "\n")) r)) := by
  refine ⟨?_, ?_, ?_⟩
  · intro e herr hgood
    unfold getTextForRange at herr
    rw [if_neg (by omega)] at herr
    split at herr <;> cases herr
  · intro hbad
    unfold getTextForRange
    rw [if_pos (by omega)]
  · intro h1 h2
    unfold getTextForRange specExtractRange
    rw [if_neg (by omega)]
    by_cases heq : r.start.line = r.endPos.line
    · rw [if_pos heq]
      simp only [heq, goClampEqMin]
      rfl
    · rw [if_neg heq]
      simp only [heq, goClampEqMin, if_false]

/-- Witness for C10: on the two-line content `ab\ncd`, the range
L0:C1-L1:C9 clamps the end character to the final line's length and
extracts `b\ncd`. -/
theorem getTextForRange_spec_witness :
    getTextForRange (str "ab\ncd") ⟨⟨0, 1⟩, ⟨1, 9⟩⟩ = .ok (str "b\ncd") := by
  have h := (getTextForRange_spec (str "ab\ncd") ⟨⟨0, 1⟩, ⟨1, 9⟩⟩).2.2
    (by decide) (by decide)
  have h2 : specExtractRange (goSplitOn (str "ab\ncd") (str "\n")) ⟨⟨0, 1⟩, ⟨1, 9⟩⟩ =
      str "b\ncd" := by decide
  rw [h, h2]

/- ---------------------------------------------------------------------
C3: the bracket-balance range extension inside GetFullDefinition
(src/unnamed/part_000 lines 255-294).  The embedding starts from the
split file lines and the nominal end boundary; the Go byte positions are
character positions here (brackets are ASCII).
--------------------------------------------------------------------- -/

/-- Go `unicode.IsSpace` restricted to the ASCII whitespace characters
(`strings.TrimSpace` on source lines only ever meets these). -/
def isGoSpace (c : Char) : Bool :=
  c = ' ' || c = '\t' || c = '\n' || c = '\x0b' || c = '\x0c' || c = '\r'

/-- Go `strings.TrimSpace`. -/
def goTrimSpace (s : GoStr) : GoStr :=
  ((s.dropWhile isGoSpace).reverse.dropWhile isGoSpace).reverse

/-- The four opening brackets recognised by GetFullDefinition. -/
def isOpenBracket (c : Char) : Bool :=
  c = '(' || c = '[' || c = '\x7b' || c = '<'

/-- The four closing brackets recognised by GetFullDefinition. -/
def isCloseBracket (c : Char) : Bool :=
  c = ')' || c = ']' || c = '\x7d' || c = '>'

/-- Matching of an opening bracket with the corresponding closer. -/
def bracketMatches (openC closeC : Char) : Bool :=
  (openC = '(' && closeC = ')') || (openC = '[' && closeC = ']') ||
  (openC = '\x7b' && closeC = '\x7d') || (openC = '<' && closeC = '>')

/-- One line of the forward scan (part_000 lines 268-289): push any
opener; on a closer matching the top of the stack pop it, exiting with
the position one past the closer when the stack empties; leave the stack
unchanged otherwise.  The stack's top is the head of the list (the Go
slice keeps it at the end). -/
def scanLine : GoStr → Nat → List Char → Sum Nat (List Char)
  | [], _, stack => .inr stack
  | c :: rest, pos, stack =>
    if isOpenBracket c then scanLine rest (pos + 1) (c :: stack)
    else if isCloseBracket c then
      match stack with
      | [] => scanLine rest (pos + 1) []
      | top :: stackRest =>
        if bracketMatches top c then
          if stackRest.isEmpty then .inl (pos + 1)
          else scanLine rest (pos + 1) stackRest
        else scanLine rest (pos + 1) stack
    else scanLine rest (pos + 1) stack

/-- The line loop of the forward scan (part_000 lines 267-291): scan each
line in turn, carrying the stack across lines; `some (line, character)`
is the updated end boundary, `none` means the scan ran off the end of the
file. -/
def scanLines : List GoStr → Nat → List Char → Option (Nat × Nat)
  | [], _, _ => none
  | line :: rest, lineNum, stack =>
    match scanLine line 0 stack with
    | .inl pos => some (lineNum, pos)
    | .inr stack2 => scanLines rest (lineNum + 1) stack2

/-- The bracket-balance extension of GetFullDefinition (part_000 lines
255-294): if the trimmed content of the nominal end line ends with an
opening bracket, scan forward from the next line; if a matching point is
found it becomes the new end boundary, otherwise (and when the line does
not end with an opener) the nominal boundary is unchanged. -/
def extendEndBracket (lines : List GoStr) (endLine endChar : Nat) : Nat × Nat :=
  let line := lines.getD endLine []
  let trimmedLine := goTrimSpace line
  if trimmedLine.length > 0 then
    let lastChar := trimmedLine.getLastD ' '
    if isOpenBracket lastChar then
      match scanLines (lines.drop (endLine + 1)) (endLine + 1) [lastChar] with
      | some (l, c) => (l, c)
      | none => (endLine, endChar)
    else (endLine, endChar)
  else (endLine, endChar)

/-- Modelled from the spec: one step of the bracket stack machine — "push
on any opener, pop on a matching closer of the corresponding kind". -/
def bracketStep (stack : List Char) (c : Char) : List Char :=
  if isOpenBracket c then c :: stack
  else if isCloseBracket c then
    match stack with
    | [] => []
    | top :: rest => if bracketMatches top c then rest else top :: rest
  else stack

/-- Modelled from the spec: the first character index within one line at
which the stack empties, if any. -/
def firstEmpty (stack : List Char) : GoStr → Option Nat
  | [] => none
  | c :: rest =>
    let st2 := bracketStep stack c
    if st2.isEmpty then some 0 else (firstEmpty st2 rest).map (· + 1)

/-- Modelled from the spec: the first position (line offset, character
index) across a list of lines at which the stack empties, if any. -/
def firstEmptyLines (stack : List Char) : List GoStr → Option (Nat × Nat)
  | [] => none
  | line :: rest =>
    match firstEmpty stack line with
    | some k => some (0, k)
    | none =>
      (firstEmptyLines (line.foldl bracketStep stack) rest).map
        (fun p => (p.1 + 1, p.2))

/-- If the stack never empties within a line, folding the step function
over the line keeps it non-empty. -/
theorem foldl_bracketStep_ne_nil (cs : GoStr) :
    ∀ stack, stack ≠ [] → firstEmpty stack cs = none →
      cs.foldl bracketStep stack ≠ [] := by
  induction cs with
  | nil => intro stack h _; simpa using h
  | cons c rest ih =>
    intro stack hne hfe
    rw [firstEmpty] at hfe
    by_cases hemp : (bracketStep stack c).isEmpty
    · rw [if_pos hemp] at hfe; cases hfe
    · rw [if_neg hemp] at hfe
      have h2 : firstEmpty (bracketStep stack c) rest = none := by
        cases h : firstEmpty (bracketStep stack c) rest with
        | none => rfl
        | some k => rw [h] at hfe; cases hfe
      have h3 : bracketStep stack c ≠ [] := by
        intro h; rw [h] at hemp; exact hemp rfl
      rw [List.foldl_cons]
      exact ih (bracketStep stack c) h3 h2

/-- Lifting the induction hypothesis of `scanLine_eq` across one consumed
character: positions shift by one. -/
theorem scanLine_shift (rest : GoStr) (pos : Nat) (st2 : List Char)
    (hne : st2 ≠ [])
    (ih : ∀ pos2 st, st ≠ [] → scanLine rest pos2 st =
      match firstEmpty st rest with
      | some k => Sum.inl (pos2 + k + 1)
      | none => Sum.inr (rest.foldl bracketStep st)) :
    scanLine rest (pos + 1) st2 =
      match (firstEmpty st2 rest).map (· + 1) with
      | some k => Sum.inl (pos + k + 1)
      | none => Sum.inr (rest.foldl bracketStep st2) := by
  rw [ih (pos + 1) st2 hne]
  cases h : firstEmpty st2 rest with
  | none => rfl
  | some k =>
    show Sum.inl (pos + 1 + k + 1) = Sum.inl (pos + (k + 1) + 1)
    congr 1
    omega

/-- The character scan of the source equals the spec's stack machine: it
exits at the first index where the stack empties (reporting one past it),
and otherwise returns the folded stack. -/
theorem scanLine_eq (cs : GoStr) :
    ∀ pos stack, stack ≠ [] →
      scanLine cs pos stack =
        match firstEmpty stack cs with
        | some k => .inl (pos + k + 1)
        | none => .inr (cs.foldl bracketStep stack) := by
  induction cs with
  | nil => intro pos stack _; rfl
  | cons c rest ih =>
    intro pos stack hne
    simp only [scanLine, firstEmpty, List.foldl_cons]
    by_cases hop : isOpenBracket c = true
    · have hstep : bracketStep stack c = c :: stack := by
        rw [bracketStep.eq_def, if_pos hop]
      rw [if_pos hop, hstep]
      simp only [List.isEmpty_cons, Bool.false_eq_true, if_false]
      exact scanLine_shift rest pos (c :: stack) (by simp) ih
    · have hop2 : isOpenBracket c = false := by
        cases h : isOpenBracket c with
        | false => rfl
        | true => exact absurd h hop
      rw [if_neg hop]
      by_cases hcl : isCloseBracket c = true
      · rw [if_pos hcl]
        cases stack with
        | nil => exact absurd rfl hne
        | cons top rest2 =>
          have hstep : bracketStep (top :: rest2) c =
              if bracketMatches top c then rest2 else top :: rest2 := by
            rw [bracketStep.eq_def, if_neg (by simp [hop2]), if_pos hcl]
          by_cases hm : bracketMatches top c = true
          · rw [if_pos hm] at hstep
            show (if bracketMatches top c = true then
                    if rest2.isEmpty = true then Sum.inl (pos + 1)
                    else scanLine rest (pos + 1) rest2
                  else scanLine rest (pos + 1) (top :: rest2)) = _
            rw [if_pos hm, hstep]
            cases rest2 with
            | nil => rfl
            | cons a l =>
              simp only [List.isEmpty_cons, Bool.false_eq_true, if_false]
              exact scanLine_shift rest pos (a :: l) (by simp) ih
          · rw [if_neg hm] at hstep
            show (if bracketMatches top c = true then
                    if rest2.isEmpty = true then Sum.inl (pos + 1)
                    else scanLine rest (pos + 1) rest2
                  else scanLine rest (pos + 1) (top :: rest2)) = _
            rw [if_neg hm, hstep]
            simp only [List.isEmpty_cons, Bool.false_eq_true, if_false]
            exact scanLine_shift rest pos (top :: rest2) (by simp) ih
      · have hcl2 : isCloseBracket c = false := by
          cases h : isCloseBracket c with
          | false => rfl
          | true => exact absurd h hcl
        rw [if_neg hcl]
        have hstep : bracketStep stack c = stack := by
          rw [bracketStep.eq_def, if_neg (by simp [hop2]), if_neg (by simp [hcl2])]
        rw [hstep]
        have hie : stack.isEmpty = false := by
          cases stack with
          | nil => exact absurd rfl hne
          | cons a l => rfl
        rw [hie]
        simp only [Bool.false_eq_true, if_false]
        exact scanLine_shift rest pos stack hne ih

/-- The line loop of the source equals the spec's first-empty-position
search across the remaining lines. -/
theorem scanLines_eq (lines : List GoStr) :
    ∀ lineNum stack, stack ≠ [] →
      scanLines lines lineNum stack =
        (firstEmptyLines stack lines).map (fun p => (lineNum + p.1, p.2 + 1)) := by
  induction lines with
  | nil => intro lineNum stack _; rfl
  | cons line rest ih =>
    intro lineNum stack hne
    simp only [scanLines, firstEmptyLines, scanLine_eq line 0 stack hne]
    cases h : firstEmpty stack line with
    | some k =>
      show some (lineNum, 0 + k + 1) = some (lineNum + 0, k + 1)
      congr 2
      omega
    | none =>
      have h3 : line.foldl bracketStep stack ≠ [] :=
        foldl_bracketStep_ne_nil line stack hne h
      show scanLines rest (lineNum + 1) (line.foldl bracketStep stack) = _
      rw [ih (lineNum + 1) (line.foldl bracketStep stack) h3]
      cases h4 : firstEmptyLines (line.foldl bracketStep stack) rest with
      | none => rfl
      | some p =>
        show some (lineNum + 1 + p.1, p.2 + 1) = some (lineNum + (p.1 + 1), p.2 + 1)
        congr 2
        omega

/-- C3: when the trimmed nominal end line ends with an opening bracket,
the end boundary moves to the first position at which the forward
bracket-balance scan (push any opener, pop only a matching-top closer)
empties the stack — nested pairs are skipped because only a matching pop
can empty it — and, if the stack never empties before the end of file, or
the line does not end with an opener, the nominal boundary is unchanged. -/
theorem extendEndBracket_spec (lines : List GoStr) (endLine endChar : Nat) :
    (¬((goTrimSpace (lines.getD endLine [])).length > 0 ∧
        isOpenBracket ((goTrimSpace (lines.getD endLine [])).getLastD ' ') = true) →
      extendEndBracket lines endLine endChar = (endLine, endChar)) ∧
    ((goTrimSpace (lines.getD endLine [])).length > 0 →
      isOpenBracket ((goTrimSpace (lines.getD endLine [])).getLastD ' ') = true →
      (∀ l c,
        firstEmptyLines [(goTrimSpace (lines.getD endLine [])).getLastD ' ']
            (lines.drop (endLine + 1)) = some (l, c) →
        extendEndBracket lines endLine endChar = (endLine + 1 + l, c + 1)) ∧
      (firstEmptyLines [(goTrimSpace (lines.getD endLine [])).getLastD ' ']
            (lines.drop (endLine + 1)) = none →
        extendEndBracket lines endLine endChar = (endLine, endChar))) := by
  constructor
  · intro hno
    by_cases hlen : (goTrimSpace (lines.getD endLine [])).length > 0
    · have hopf : isOpenBracket ((goTrimSpace (lines.getD endLine [])).getLastD ' ') = false := by
        cases h : isOpenBracket ((goTrimSpace (lines.getD endLine [])).getLastD ' ') with
        | false => rfl
        | true => exact absurd ⟨hlen, h⟩ hno
      simp only [extendEndBracket]
      rw [if_pos hlen, hopf]
      simp
    · simp only [extendEndBracket]
      rw [if_neg hlen]
  · intro hlen hop
    have hscan := scanLines_eq (lines.drop (endLine + 1)) (endLine + 1)
      [(goTrimSpace (lines.getD endLine [])).getLastD ' '] (by simp)
    constructor
    · intro l c hfe
      rw [hfe, Option.map_some'] at hscan
      simp only [extendEndBracket]
      rw [if_pos hlen, if_pos hop, hscan]
    · intro hfe
      rw [hfe] at hscan
      simp only [extendEndBracket]
      rw [if_pos hlen, if_pos hop, hscan]
      rfl

/-- Witness for C3 on the spec's nested example: `func Foo() \x7b` with an
inner brace block extends to the matching outer closer at line 4,
character 1, skipping the nested pair. -/
theorem extendEndBracket_spec_witness :
    extendEndBracket
      [str "func Foo() \x7b", str "  if x \x7b", str "    y()",
       str "  \x7d", str "\x7d"] 0 12 = (4, 1) := by
  have h := ((extendEndBracket_spec
      [str "func Foo() \x7b", str "  if x \x7b", str "    y()",
       str "  \x7d", str "\x7d"] 0 12).2 (by decide) (by decide)).1 3 0 (by decide)
  rw [h]

/- ---------------------------------------------------------------------
C1: findSymbolContainingPosition (src/internal/tools/find-references.go
lines 65-159).  DocumentSymbol trees are modelled directly; the source's
skipping of non-DocumentSymbol results is elided (the caller already
guards against SymbolInformation results).  The uint32 span subtractions
of the source are modelled with explicit wraparound.
--------------------------------------------------------------------- -/

/-- protocol.DocumentSymbol: name, kind, range and child symbols. -/
inductive DocumentSymbol where
  | mk (name : GoStr) (kind : Nat) (range : LspRange)
      (children : List DocumentSymbol)

/-- The symbol's range. -/
def DocumentSymbol.range : DocumentSymbol → LspRange
  | .mk _ _ r _ => r

/-- The symbol's children. -/
def DocumentSymbol.children : DocumentSymbol → List DocumentSymbol
  | .mk _ _ _ c => c

/-- The symbol's name. -/
def DocumentSymbol.name : DocumentSymbol → GoStr
  | .mk n _ _ _ => n

/-- Go uint32 subtraction `a - b` for operands below `2 ^ 32`, with
wraparound. -/
def usub32 (a b : Nat) : Nat := (a + (2 ^ 32 - b % 2 ^ 32)) % 2 ^ 32

/-- The line span `End.Line - Start.Line` of a range (uint32 arithmetic). -/
def lineSpan (r : LspRange) : Nat := usub32 r.endPos.line r.start.line

/-- The character span `End.Character - Start.Character` of a range
(uint32 arithmetic). -/
def charSpan (r : LspRange) : Nat := usub32 r.endPos.character r.start.character

/-- The containment check of find-references.go lines 87-101: the line
lies within the range and, on a boundary line, the character is not
before the start nor after the end. -/
def posInRange (r : LspRange) (p : LspPos) : Bool :=
  decide (r.start.line ≤ p.line) && decide (p.line ≤ r.endPos.line) &&
  !(decide (p.line = r.start.line) && decide (p.character < r.start.character)) &&
  !(decide (p.line = r.endPos.line) && decide (p.character > r.endPos.character))

/-- The candidate comparison of find-references.go lines 134-139: a nil
best is always superseded; otherwise a strictly smaller line span wins,
ties broken by a strictly smaller character span. -/
def isBetterMatch (bestMatch : Option DocumentSymbol) (symRange : LspRange) : Bool :=
  match bestMatch with
  | none => true
  | some b =>
    decide (lineSpan symRange < lineSpan b.range) ||
    (decide (lineSpan symRange = lineSpan b.range) &&
     decide (charSpan symRange < charSpan b.range))

mutual

/-- The symbol loop of findSymbolContainingPosition (lines 71-152),
carrying the best match across the list. -/
def findSymLoop : List DocumentSymbol → LspPos → Option DocumentSymbol →
    Option DocumentSymbol
  | [], _, bestMatch => bestMatch
  | ds :: rest, targetPos, bestMatch =>
    findSymLoop rest targetPos (findSymOne ds targetPos bestMatch)

/-- The per-symbol step (lines 104-147): if the symbol contains the
position, a successful child search supersedes the best match
unconditionally; otherwise the symbol supersedes it only when smaller. -/
def findSymOne : DocumentSymbol → LspPos → Option DocumentSymbol →
    Option DocumentSymbol
  | .mk nm kd rg children, targetPos, bestMatch =>
    if posInRange rg targetPos then
      match findSymLoop children targetPos none with
      | some childMatch => some childMatch
      | none =>
        if isBetterMatch bestMatch rg then some (.mk nm kd rg children)
        else bestMatch
    else bestMatch

end

/-- findSymbolContainingPosition from find-references.go lines 65-159:
run the loop with no initial best match. -/
def findSymbolContainingPosition (symbols : List DocumentSymbol)
    (targetPos : LspPos) : Option DocumentSymbol :=
  findSymLoop symbols targetPos none

mutual

/-- All nodes of a symbol forest. -/
def allNodesList : List DocumentSymbol → List DocumentSymbol
  | [] => []
  | d :: rest => allNodesOne d ++ allNodesList rest

/-- A node together with all nodes of its subtrees. -/
def allNodesOne : DocumentSymbol → List DocumentSymbol
  | .mk nm kd rg children => .mk nm kd rg children :: allNodesList children

end

/-- Lexicographic (line, character) order on positions. -/
def posLeLex (a b : LspPos) : Bool :=
  decide (a.line < b.line) ||
  (decide (a.line = b.line) && decide (a.character ≤ b.character))

/-- Range `inner` lies within `outer` (the LSP well-formedness of a child range
inside its parent range). -/
def rangeWithin (inner outer : LspRange) : Bool :=
  posLeLex outer.start inner.start && posLeLex inner.endPos outer.endPos

/-- Every child range lies within the parent range `rg`. -/
def childrenWithin (rg : LspRange) (children : List DocumentSymbol) : Bool :=
  children.all (fun c => rangeWithin c.range rg)

mutual

/-- LSP well-formedness of a forest: child ranges nest inside parents. -/
def wfList : List DocumentSymbol → Bool
  | [] => true
  | d :: rest => wfOne d && wfList rest

/-- LSP well-formedness of a tree: child ranges nest inside parents. -/
def wfOne : DocumentSymbol → Bool
  | .mk _ _ rg children => childrenWithin rg children && wfList children

end

/-- Containment is the lexicographic interval membership. -/
theorem posInRange_iff (r : LspRange) (p : LspPos) :
    posInRange r p = true ↔
      ((r.start.line < p.line ∨
          (r.start.line = p.line ∧ r.start.character ≤ p.character)) ∧
       (p.line < r.endPos.line ∨
          (p.line = r.endPos.line ∧ p.character ≤ r.endPos.character))) := by
  simp only [posInRange, Bool.and_eq_true, Bool.not_eq_true', Bool.and_eq_false_iff,
    decide_eq_true_eq, decide_eq_false_iff_not]
  omega

/-- Containment is monotone along range nesting. -/
theorem posInRange_mono (inner outer : LspRange) (p : LspPos)
    (hw : rangeWithin inner outer = true) (hp : posInRange inner p = true) :
    posInRange outer p = true := by
  rw [posInRange_iff] at hp ⊢
  simp only [rangeWithin, posLeLex, Bool.and_eq_true, Bool.or_eq_true,
    decide_eq_true_eq] at hw
  omega

/-- Membership in the node list of a forest decomposes through a root. -/
theorem mem_allNodesList (symbols : List DocumentSymbol) (x : DocumentSymbol) :
    x ∈ allNodesList symbols ↔ ∃ c ∈ symbols, x ∈ allNodesOne c := by
  induction symbols with
  | nil => simp [allNodesList]
  | cons d rest ih =>
    simp only [allNodesList, List.mem_append, ih, List.mem_cons]
    constructor
    · rintro (h | ⟨c, hc, hx⟩)
      · exact ⟨d, Or.inl rfl, h⟩
      · exact ⟨c, Or.inr hc, hx⟩
    · rintro ⟨c, hc | hc, hx⟩
      · exact Or.inl (hc ▸ hx)
      · exact Or.inr ⟨c, hc, hx⟩

mutual

/-- Any returned match is a node of the forest containing the position,
unless it is the carried-in best match. -/
theorem findSymLoop_mem (symbols : List DocumentSymbol) :
    ∀ (pos : LspPos) (best : Option DocumentSymbol) (r : DocumentSymbol),
      findSymLoop symbols pos best = some r →
      (r ∈ allNodesList symbols ∧ posInRange r.range pos = true) ∨
        best = some r := by
  match symbols with
  | [] =>
    intro pos best r h
    exact Or.inr h
  | ds :: rest =>
    intro pos best r h
    rw [findSymLoop] at h
    rcases findSymLoop_mem rest pos (findSymOne ds pos best) r h with ⟨hm, hc⟩ | hbest
    · refine Or.inl ⟨?_, hc⟩
      rw [allNodesList]
      exact List.mem_append.mpr (Or.inr hm)
    · rcases findSymOne_mem ds pos best r hbest with ⟨hm, hc⟩ | hb
      · refine Or.inl ⟨?_, hc⟩
        rw [allNodesList]
        exact List.mem_append.mpr (Or.inl hm)
      · exact Or.inr hb

/-- Any match returned by the per-symbol step is a node of the subtree
containing the position, unless it is the carried-in best match. -/
theorem findSymOne_mem (d : DocumentSymbol) :
    ∀ (pos : LspPos) (best : Option DocumentSymbol) (r : DocumentSymbol),
      findSymOne d pos best = some r →
      (r ∈ allNodesOne d ∧ posInRange r.range pos = true) ∨ best = some r := by
  match d with
  | .mk nm kd rg children =>
    intro pos best r h
    rw [findSymOne] at h
    by_cases hin : posInRange rg pos = true
    · rw [if_pos hin] at h
      cases hc : findSymLoop children pos none with
      | some childMatch =>
        rw [hc] at h
        have h2 : some childMatch = some r := h
        have hr : childMatch = r := Option.some.inj h2
        subst hr
        rcases findSymLoop_mem children pos none childMatch hc with ⟨hm, hcon⟩ | hnone
        · refine Or.inl ⟨?_, hcon⟩
          rw [allNodesOne]
          exact List.mem_cons_of_mem _ hm
        · exact Option.noConfusion hnone
      | none =>
        rw [hc] at h
        have h2 : (if isBetterMatch best rg = true then
            some (DocumentSymbol.mk nm kd rg children) else best) = some r := h
        by_cases hb : isBetterMatch best rg = true
        · rw [if_pos hb] at h2
          cases h2
          refine Or.inl ⟨?_, hin⟩
          rw [allNodesOne]
          exact List.mem_cons_self _ _
        · rw [if_neg hb] at h2
          exact Or.inr h2
    · rw [if_neg hin] at h
      exact Or.inr h

end

mutual

/-- The loop never loses a carried-in match. -/
theorem findSymLoop_isSome (symbols : List DocumentSymbol) :
    ∀ (pos : LspPos) (best : Option DocumentSymbol), best.isSome = true →
      (findSymLoop symbols pos best).isSome = true := by
  match symbols with
  | [] => exact fun pos best h => h
  | ds :: rest =>
    intro pos best h
    rw [findSymLoop]
    exact findSymLoop_isSome rest pos _ (findSymOne_isSome ds pos best h)

/-- The per-symbol step never loses a carried-in match. -/
theorem findSymOne_isSome (d : DocumentSymbol) :
    ∀ (pos : LspPos) (best : Option DocumentSymbol), best.isSome = true →
      (findSymOne d pos best).isSome = true := by
  match d with
  | .mk nm kd rg children =>
    intro pos best h
    rw [findSymOne]
    by_cases hin : posInRange rg pos = true
    · rw [if_pos hin]
      cases hc : findSymLoop children pos none with
      | some childMatch => rfl
      | none =>
        by_cases hb : isBetterMatch best rg = true
        · rw [if_pos hb]
          rfl
        · rw [if_neg hb]
          exact h
    · rw [if_neg hin]
      exact h

end

mutual

/-- If a node of a well-formed forest contains the position, some root of
the forest contains it. -/
theorem allNodes_lift_loop (symbols : List DocumentSymbol) :
    ∀ (pos : LspPos) (ds : DocumentSymbol), wfList symbols = true →
      ds ∈ allNodesList symbols → posInRange ds.range pos = true →
      ∃ c ∈ symbols, posInRange c.range pos = true := by
  match symbols with
  | [] =>
    intro pos ds _ hmem _
    rw [allNodesList] at hmem
    exact absurd hmem (List.not_mem_nil ds)
  | d :: rest =>
    intro pos ds hwf hmem hcon
    rw [wfList, Bool.and_eq_true] at hwf
    rw [allNodesList] at hmem
    rcases List.mem_append.mp hmem with hm | hm
    · exact ⟨d, List.mem_cons_self _ _, allNodes_lift_one d pos ds hwf.1 hm hcon⟩
    · obtain ⟨c, hc, hcc⟩ := allNodes_lift_loop rest pos ds hwf.2 hm hcon
      exact ⟨c, List.mem_cons_of_mem _ hc, hcc⟩

/-- If a node of a well-formed subtree contains the position, the root of
the subtree contains it. -/
theorem allNodes_lift_one (d : DocumentSymbol) :
    ∀ (pos : LspPos) (ds : DocumentSymbol), wfOne d = true →
      ds ∈ allNodesOne d → posInRange ds.range pos = true →
      posInRange d.range pos = true := by
  match d with
  | .mk nm kd rg children =>
    intro pos ds hwf hmem hcon
    rw [wfOne, Bool.and_eq_true] at hwf
    rw [allNodesOne] at hmem
    show posInRange rg pos = true
    rcases List.mem_cons.mp hmem with rfl | hm
    · exact hcon
    · obtain ⟨c, hc, hcc⟩ := allNodes_lift_loop children pos ds hwf.2 hm hcon
      have hcw : rangeWithin c.range rg = true :=
        List.all_eq_true.mp hwf.1 c hc
      exact posInRange_mono c.range rg pos hcw hcc

end

mutual

/-- Over a well-formed forest, the loop finds a match whenever some node
contains the position. -/
theorem findSymLoop_found (symbols : List DocumentSymbol) :
    ∀ (pos : LspPos) (best : Option DocumentSymbol), wfList symbols = true →
      (∃ ds ∈ allNodesList symbols, posInRange ds.range pos = true) →
      (findSymLoop symbols pos best).isSome = true := by
  match symbols with
  | [] =>
    intro pos best _ hex
    obtain ⟨ds, hmem, _⟩ := hex
    rw [allNodesList] at hmem
    exact absurd hmem (List.not_mem_nil ds)
  | d :: rest =>
    intro pos best hwf hex
    obtain ⟨ds, hmem, hcon⟩ := hex
    rw [wfList, Bool.and_eq_true] at hwf
    rw [findSymLoop]
    rw [allNodesList] at hmem
    rcases List.mem_append.mp hmem with hm | hm
    · exact findSymLoop_isSome rest pos _
        (findSymOne_found d pos best hwf.1 ⟨ds, hm, hcon⟩)
    · exact findSymLoop_found rest pos _ hwf.2 ⟨ds, hm, hcon⟩

/-- Over a well-formed subtree, the per-symbol step finds a match
whenever some node of the subtree contains the position. -/
theorem findSymOne_found (d : DocumentSymbol) :
    ∀ (pos : LspPos) (best : Option DocumentSymbol), wfOne d = true →
      (∃ ds ∈ allNodesOne d, posInRange ds.range pos = true) →
      (findSymOne d pos best).isSome = true := by
  match d with
  | .mk nm kd rg children =>
    intro pos best hwf hex
    obtain ⟨ds, hmem, hcon⟩ := hex
    have hrg : posInRange rg pos = true :=
      allNodes_lift_one (.mk nm kd rg children) pos ds hwf hmem hcon
    rw [findSymOne, if_pos hrg]
    cases hc : findSymLoop children pos none with
    | some childMatch => rfl
    | none =>
      by_cases hb : isBetterMatch best rg = true
      · rw [if_pos hb]
        rfl
      · cases best with
        | none =>
          rw [isBetterMatch] at hb
          exact absurd rfl hb
        | some b =>
          rw [if_neg hb]
          rfl

end

/-- C1 (amended): over a well-formed symbol tree (child ranges nested in
parent ranges), `findSymbolContainingPosition` returns a node of the tree
that contains the position, and reports not-found exactly when no node of
the tree contains the position.  The returned node need not have the
smallest line span among all containing nodes: a successful child search
supersedes the recorded best candidate unconditionally, so a smaller
containing node from an earlier sibling subtree can be discarded (see the
counterexample). -/
theorem findSymbolContainingPosition_spec (symbols : List DocumentSymbol)
    (pos : LspPos) (hwf : wfList symbols = true) :
    (∀ ds, findSymbolContainingPosition symbols pos = some ds →
      ds ∈ allNodesList symbols ∧ posInRange ds.range pos = true) ∧
    ((findSymbolContainingPosition symbols pos).isSome = true ↔
      ∃ ds ∈ allNodesList symbols, posInRange ds.range pos = true) := by
  constructor
  · intro ds h
    rcases findSymLoop_mem symbols pos none ds h with h2 | h2
    · exact h2
    · exact Option.noConfusion h2
  · constructor
    · intro hsome
      cases hr : findSymbolContainingPosition symbols pos with
      | none =>
        rw [hr] at hsome
        cases hsome
      | some r =>
        rcases findSymLoop_mem symbols pos none r hr with ⟨hm, hc⟩ | h2
        · exact ⟨r, hm, hc⟩
        · exact Option.noConfusion h2
    · intro hex
      exact findSymLoop_found symbols pos none hwf hex

/-- The node `A` of the C1 counterexample: a zero-span leaf containing
the position. -/
def exNodeA : DocumentSymbol := .mk (str "A") 13 ⟨⟨0, 0⟩, ⟨0, 10⟩⟩ []

/-- The node `C` of the C1 counterexample: the five-line child of `B`. -/
def exNodeC : DocumentSymbol := .mk (str "C") 12 ⟨⟨0, 0⟩, ⟨5, 0⟩⟩ []

/-- The node `B` of the C1 counterexample: a five-line sibling of `A`
whose child `C` has the same range. -/
def exNodeB : DocumentSymbol := .mk (str "B") 12 ⟨⟨0, 0⟩, ⟨5, 0⟩⟩ [exNodeC]

/-- C1 counterexample: on the well-formed tree `[A, B]` (`A` a zero-span
leaf at (0,0)-(0,10); `B` at (0,0)-(5,0) with child `C` of the same
range) and position (0,5), the search returns `C` (line span 5) although
the containing node `A` has the strictly smaller line span 0: the child
match found inside `B` supersedes the recorded candidate `A`
unconditionally, so the result is not the containing node of strictly
smallest line span. -/
theorem findSymbolContainingPosition_counterexample :
    wfList [exNodeA, exNodeB] = true ∧
    (allNodesList [exNodeA, exNodeB]).map DocumentSymbol.name =
      [str "A", str "B", str "C"] ∧
    posInRange exNodeA.range ⟨0, 5⟩ = true ∧
    (findSymbolContainingPosition [exNodeA, exNodeB] ⟨0, 5⟩).map
      DocumentSymbol.name = some (str "C") ∧
    (findSymbolContainingPosition [exNodeA, exNodeB] ⟨0, 5⟩).map
      (fun ds => lineSpan ds.range) = some 5 ∧
    lineSpan exNodeA.range = 0 := by
  refine ⟨?_, ?_, ?_, ?_, ?_, ?_⟩ <;> decide

/-- Witness for the amended C1 theorem on the specification's own
example: `Outer` (0,0)-(10,0) containing `Inner` (2,0)-(4,0); position
(3,0) is found, and the found node contains it. -/
theorem findSymbolContainingPosition_spec_witness :
    wfList [DocumentSymbol.mk (str "Outer") 12 ⟨⟨0, 0⟩, ⟨10, 0⟩⟩
      [.mk (str "Inner") 12 ⟨⟨2, 0⟩, ⟨4, 0⟩⟩ []]] = true ∧
    (findSymbolContainingPosition
      [DocumentSymbol.mk (str "Outer") 12 ⟨⟨0, 0⟩, ⟨10, 0⟩⟩
        [.mk (str "Inner") 12 ⟨⟨2, 0⟩, ⟨4, 0⟩⟩ []]] ⟨3, 0⟩).isSome = true := by
  refine ⟨by decide, ?_⟩
  refine (findSymbolContainingPosition_spec _ ⟨3, 0⟩ (by decide)).2.mpr ?_
  refine ⟨.mk (str "Inner") 12 ⟨⟨2, 0⟩, ⟨4, 0⟩⟩ [], ?_, by decide⟩
  simp [allNodesList, allNodesOne]

/- ---------------------------------------------------------------------
C4 and C5: the windowed renderer of FindReferences
(src/internal/tools/find-references.go lines 479-586).  The truncated
output is modelled structurally: a `TruncLine.skip n` entry stands for the
formatted `"    ... n lines skipped ..."` marker string the source
appends.  Highlight offsets are Go ints (they come from uint32
subtractions converted to int and are shifted by ±2), hence `Int`.
--------------------------------------------------------------------- -/

/-- One line of the truncated scope: either an original code line or a
skip marker recording how many lines were elided. -/
inductive TruncLine where
  | code (line : GoStr)
  | skip (count : Nat)
deriving DecidableEq, Repr

/-- The keep-set of find-references.go lines 486-500: the first five
lines, the last three lines, and a ±2 window around every highlight
offset. -/
def isImportant (n : Nat) (highlightLines : List Int) (i : Nat) : Bool :=
  decide (i < 5) || decide (n ≤ i + 3) ||
  highlightLines.any (fun hl => decide (hl - 2 ≤ (i : Int)) && decide ((i : Int) ≤ hl + 2))

/-- The truncation loop of find-references.go lines 502-528, processing
the original indices in order and returning the truncated lines together
with the original-to-truncated index map (`currentTruncatedIndex` counts
skip markers). -/
def truncGo (scopeLines : List GoStr) (imp : Nat → Bool) :
    List Nat → Bool → Int → Nat → List TruncLine × List (Nat × Nat)
  | [], inSkipSection, lastShownIndex, _ =>
    if inSkipSection = true ∧ lastShownIndex < (scopeLines.length : Int) - 1 then
      let skippedLines := (scopeLines.length : Int) - lastShownIndex - 1
      if skippedLines > 0 then ([.skip skippedLines.toNat], []) else ([], [])
    else ([], [])
  | i :: rest, inSkipSection, lastShownIndex, currentTruncatedIndex =>
    if imp i = true then
      if inSkipSection = true then
        let r := truncGo scopeLines imp rest false (i : Int) (currentTruncatedIndex + 2)
        (.skip ((i : Int) - lastShownIndex - 1).toNat ::
           .code (scopeLines.getD i []) :: r.1,
         (i, currentTruncatedIndex + 1) :: r.2)
      else
        let r := truncGo scopeLines imp rest false (i : Int) (currentTruncatedIndex + 1)
        (.code (scopeLines.getD i []) :: r.1, (i, currentTruncatedIndex) :: r.2)
    else if inSkipSection = false ∧ lastShownIndex ≥ 0 then
      truncGo scopeLines imp rest true lastShownIndex currentTruncatedIndex
    else
      truncGo scopeLines imp rest inSkipSection lastShownIndex currentTruncatedIndex

/-- Lookup in the original-to-truncated index map (the Go map access
`originalToTruncatedIndexMap[origIdx]`). -/
def assocLookup (mp : List (Nat × Nat)) (k : Int) : Option Nat :=
  (mp.find? (fun p => decide ((p.1 : Int) = k))).map Prod.snd

/-- The original-to-truncated index map built by the truncation loop. -/
def truncMapOf (scopeLines : List GoStr) (highlightLines : List Int) :
    List (Nat × Nat) :=
  (truncGo scopeLines (isImportant scopeLines.length highlightLines)
    (List.range scopeLines.length) false (-1) 0).2

/-- The truncation stage of find-references.go lines 479-541: scopes of
more than 50 lines are truncated to the keep-set with skip markers and
the highlight offsets remapped through the index map (offsets of elided
lines are dropped); smaller scopes pass through unchanged. -/
def truncateScope (scopeLines : List GoStr) (highlightLines : List Int) :
    List TruncLine × List Int :=
  if scopeLines.length > 50 then
    let r := truncGo scopeLines (isImportant scopeLines.length highlightLines)
      (List.range scopeLines.length) false (-1) 0
    (r.1, highlightLines.filterMap
      (fun hl => (assocLookup r.2 hl).map (fun t => (t : Int))))
  else (scopeLines.map TruncLine.code, highlightLines)

/-- Decimal rendering of a Nat (for the skip marker text). -/
def natToStr (n : Nat) : GoStr := (toString n).toList

/-- The skip marker string `"    ... N lines skipped ..."`. -/
def skipMarkerText (n : Nat) : GoStr :=
  str "    ... " ++ natToStr n ++ str " lines skipped ..."

/-- Decimal digits to a number (for the modelled Sscanf). -/
def digitsToNat (ds : GoStr) : Nat :=
  ds.foldl (fun acc c => acc * 10 + (c.toNat - 48)) 0

/-- Model of `fmt.Sscanf(line, "    ... %d lines skipped ...", &skipped)`
restricted to the exact marker shape: the parsed count, or 0 when the
line does not parse (the source ignores the error, leaving 0). -/
def parseSkipCount (line : GoStr) : Nat :=
  if goHasPre line (str "    ... ") then
    let rest := line.drop 8
    let digits := rest.takeWhile Char.isDigit
    let after := rest.drop digits.length
    if digits ≠ [] ∧ goHasPre after (str " lines skipped ...") then digitsToNat digits
    else 0
  else 0

/-- The rendering loop of find-references.go lines 543-586: any line
containing `"lines skipped"` is written unchanged (advancing the line
counter by the parsed skip count when numbering); other lines get a
line number and a `>` or `|` marker, or a `"> "` / `"  "` marker without
numbering.  `i` is the output index compared against the highlight
offsets. -/
def renderGo : List TruncLine → List Int → Bool → Nat → Nat → List GoStr
  | [], _, _, _, _ => []
  | tl :: rest, hls, showLineNumbers, i, lineNum =>
    let isRef := hls.any (fun hl => decide (hl = (i : Int)))
    match tl with
    | .skip m =>
      skipMarkerText m ::
        renderGo rest hls showLineNumbers (i + 1)
          (if showLineNumbers then lineNum + m else lineNum)
    | .code line =>
      if goContains line (str "lines skipped") then
        line ::
          renderGo rest hls showLineNumbers (i + 1)
            (if showLineNumbers then lineNum + parseSkipCount line else lineNum)
      else if showLineNumbers then
        let numStr := natToStr lineNum
        (List.replicate (5 - numStr.length) ' ' ++ numStr ++
            (if isRef then str ">" else str "|") ++ str " " ++ line) ::
          renderGo rest hls showLineNumbers (i + 1) (lineNum + 1)
      else
        ((if isRef then str "> " else str "  ") ++ line) ::
          renderGo rest hls showLineNumbers (i + 1) (lineNum + 1)

/-- Rendering a scope: line numbering starts at the scope's first line
(`int(scopeID.StartLine) + 1`). -/
def renderScope (finalScopeLines : List TruncLine) (finalHighlightIndices : List Int)
    (startLine : Nat) (showLineNumbers : Bool) : List GoStr :=
  renderGo finalScopeLines finalHighlightIndices showLineNumbers 0 (startLine + 1)

/-- The code lines of a truncated scope, in order. -/
def codeLines : List TruncLine → List GoStr
  | [] => []
  | .code l :: rest => l :: codeLines rest
  | .skip _ :: rest => codeLines rest

/-- The number of code lines of a truncated scope. -/
def codeCount (tl : List TruncLine) : Nat := (codeLines tl).length

/-- The total number of lines elided by the skip markers. -/
def skipSum : List TruncLine → Nat
  | [] => 0
  | .code _ :: rest => skipSum rest
  | .skip n :: rest => n + skipSum rest

/-- The invariant tying one run of the truncation loop (over the indices
`s, s+1, ..., s+len-1`, with `j` the last shown index and `curIdx` the
running truncated index) to the keep-set: the code lines are exactly the
kept lines in order, code lines and skip counts add up to the unprocessed
remainder, the map keys are the kept indices, and each map value points
at its code line within the produced output. -/
def TruncOK (scopeLines : List GoStr) (imp : Nat → Bool) (s len j curIdx : Nat)
    (r : List TruncLine × List (Nat × Nat)) : Prop :=
  codeLines r.1 = ((List.range' s len).filter imp).map (fun i => scopeLines.getD i []) ∧
  codeCount r.1 + skipSum r.1 = s + len - 1 - j ∧
  r.2.map Prod.fst = (List.range' s len).filter imp ∧
  ∀ p ∈ r.2, curIdx ≤ p.2 ∧ r.1.getD (p.2 - curIdx) (.skip 0) = .code (scopeLines.getD p.1 [])

/-- The truncation loop satisfies the invariant: by induction over the
remaining indices, given that `j` is the last kept index before `s`, all
indices strictly between are elided, and the in-skip flag records whether
that gap is non-empty. -/
theorem truncGo_spec (scopeLines : List GoStr) (imp : Nat → Bool) :
    ∀ (len s j curIdx : Nat) (b : Bool),
      b = decide (j + 1 < s) →
      scopeLines.length = s + len →
      j < s →
      imp j = true →
      (∀ k, j < k → k < s → imp k = false) →
      TruncOK scopeLines imp s len j curIdx
        (truncGo scopeLines imp (List.range' s len) b (j : Int) curIdx) := by
  intro len
  induction len with
  | zero =>
    intro s j curIdx b hb hn hj himp hgap
    rw [List.range'_zero]
    simp only [truncGo]
    by_cases hcond : j + 1 < s
    · have hbt : b = true := by rw [hb]; exact decide_eq_true hcond
      rw [if_pos ⟨hbt, by rw [hn]; push_cast; omega⟩,
        if_pos (by rw [hn]; push_cast; omega)]
      refine ⟨by simp [codeLines], ?_, by simp, by simp⟩
      show codeCount [TruncLine.skip _] + skipSum [TruncLine.skip _] = _
      simp only [codeCount, codeLines, skipSum, List.length_nil]
      rw [hn]
      omega
    · have hbt : b = false := by rw [hb]; exact decide_eq_false hcond
      rw [if_neg (by rw [hbt]; simp)]
      refine ⟨by simp [codeLines], ?_, by simp, by simp⟩
      show codeCount ([] : List TruncLine) + skipSum [] = _
      simp only [codeCount, codeLines, skipSum, List.length_nil]
      omega
  | succ len ihl =>
    intro s j curIdx b hb hn hj himp hgap
    rw [List.range'_succ]
    simp only [truncGo]
    by_cases him : imp s = true
    · rw [if_pos him]
      by_cases hcond : j + 1 < s
      · have hbt : b = true := by rw [hb]; exact decide_eq_true hcond
        rw [if_pos hbt]
        obtain ⟨IH1, IH2, IH3, IH4⟩ := ihl (s + 1) s (curIdx + 2) false
          ((decide_eq_false (by omega)).symm)
          (by omega) (by omega) him (fun k hk1 hk2 => absurd hk1 (by omega))
        refine ⟨?_, ?_, ?_, ?_⟩
        · show codeLines (TruncLine.skip _ :: TruncLine.code _ :: _) = _
          simp only [codeLines]
          rw [IH1, List.range'_succ, List.filter_cons_of_pos him, List.map_cons]
        · show codeCount (TruncLine.skip _ :: TruncLine.code _ :: _) +
            skipSum (TruncLine.skip _ :: TruncLine.code _ :: _) = _
          simp only [codeCount, codeLines, skipSum, List.length_cons]
          simp only [codeCount, codeLines] at IH2
          omega
        · show ((s, curIdx + 1) :: _).map Prod.fst = _
          rw [List.map_cons, IH3, List.range'_succ, List.filter_cons_of_pos him]
        · intro p hp
          rcases List.mem_cons.mp hp with rfl | hp2
          · refine ⟨by omega, ?_⟩
            simp only
            have h1 : curIdx + 1 - curIdx = 1 := by omega
            rw [h1]
            rfl
          · obtain ⟨hle, hgd⟩ := IH4 p hp2
            refine ⟨by omega, ?_⟩
            simp only
            have harith : p.2 - curIdx = p.2 - (curIdx + 2) + 1 + 1 := by omega
            rw [harith, List.getD_cons_succ, List.getD_cons_succ]
            exact hgd
      · have hbt : b = false := by rw [hb]; exact decide_eq_false hcond
        rw [if_neg (by rw [hbt]; simp)]
        obtain ⟨IH1, IH2, IH3, IH4⟩ := ihl (s + 1) s (curIdx + 1) false
          ((decide_eq_false (by omega)).symm)
          (by omega) (by omega) him (fun k hk1 hk2 => absurd hk1 (by omega))
        refine ⟨?_, ?_, ?_, ?_⟩
        · show codeLines (TruncLine.code _ :: _) = _
          simp only [codeLines]
          rw [IH1, List.range'_succ, List.filter_cons_of_pos him, List.map_cons]
        · show codeCount (TruncLine.code _ :: _) + skipSum (TruncLine.code _ :: _) = _
          simp only [codeCount, codeLines, skipSum, List.length_cons]
          simp only [codeCount, codeLines] at IH2
          omega
        · show ((s, curIdx) :: _).map Prod.fst = _
          rw [List.map_cons, IH3, List.range'_succ, List.filter_cons_of_pos him]
        · intro p hp
          rcases List.mem_cons.mp hp with rfl | hp2
          · refine ⟨by omega, ?_⟩
            simp only
            have h1 : curIdx - curIdx = 0 := by omega
            rw [h1]
            rfl
          · obtain ⟨hle, hgd⟩ := IH4 p hp2
            refine ⟨by omega, ?_⟩
            simp only
            have harith : p.2 - curIdx = p.2 - (curIdx + 1) + 1 := by omega
            rw [harith, List.getD_cons_succ]
            exact hgd
    · rw [if_neg (by simp [him])]
      have hnext : ∀ k, j < k → k < s + 1 → imp k = false := by
        intro k hk1 hk2
        by_cases hks : k = s
        · rw [hks]
          simpa using him
        · exact hgap k hk1 (by omega)
      obtain ⟨IH1, IH2, IH3, IH4⟩ := ihl (s + 1) j curIdx true
        ((decide_eq_true (by omega : j + 1 < s + 1)).symm)
        (by omega) (by omega) himp hnext
      have hsame :
          (if b = false ∧ (j : Int) ≥ 0 then
            truncGo scopeLines imp (List.range' (s + 1) len) true (j : Int) curIdx
          else truncGo scopeLines imp (List.range' (s + 1) len) b (j : Int) curIdx) =
            truncGo scopeLines imp (List.range' (s + 1) len) true (j : Int) curIdx := by
        by_cases hbv : b = false
        · rw [if_pos ⟨hbv, by omega⟩]
        · have hbt : b = true := by
            cases b with
            | false => exact absurd rfl hbv
            | true => rfl
          rw [if_neg (by simp [hbv]), hbt]
      rw [hsame]
      refine ⟨?_, ?_, ?_, ?_⟩
      · rw [IH1, List.range'_succ, List.filter_cons_of_neg him]
      · rw [IH2]
        omega
      · rw [IH3, List.range'_succ, List.filter_cons_of_neg him]
      · exact IH4

/-- A `List.any` with an equality test is membership. -/
theorem anyEqMem (l : List Int) (x : Int) :
    l.any (fun hl => decide (hl = x)) = true ↔ x ∈ l := by
  rw [List.any_eq_true]
  constructor
  · rintro ⟨y, hy, hxy⟩
    rw [decide_eq_true_eq] at hxy
    exact hxy ▸ hy
  · intro hx
    exact ⟨x, hx, by simp⟩

/-- The value of one rendered output line (no line numbers): skip markers
render as their text, a code line containing `"lines skipped"` renders
unchanged, any other code line gets the `"> "` marker exactly when its
output index `idx` is a highlight offset. -/
def renderEntryModel (hls : List Int) (idx : Nat) : TruncLine → GoStr
  | .skip m => skipMarkerText m
  | .code line =>
    if goContains line (str "lines skipped") = true then line
    else if hls.any (fun hl => decide (hl = (idx : Int))) = true
    then str "> " ++ line else str "  " ++ line

/-- Characterisation of the renderer without line numbers: one output
line per truncated line, each valued by `renderEntryModel` at its output
index. -/
theorem renderGo_false_spec (tl : List TruncLine) :
    ∀ (hls : List Int) (i lineNum : Nat),
      (renderGo tl hls false i lineNum).length = tl.length ∧
      ∀ k, k < tl.length →
        (renderGo tl hls false i lineNum).getD k [] =
          renderEntryModel hls (i + k) (tl.getD k (.skip 0)) := by
  induction tl with
  | nil =>
    intro hls i lineNum
    exact ⟨rfl, fun k hk => absurd hk (by simp)⟩
  | cons t rest ih =>
    intro hls i lineNum
    cases t with
    | skip m =>
      simp only [renderGo, Bool.false_eq_true, if_false]
      constructor
      · simp only [List.length_cons, (ih hls (i + 1) lineNum).1]
      · intro k hk
        cases k with
        | zero => simp [renderEntryModel]
        | succ k2 =>
          simp only [List.getD_cons_succ]
          rw [(ih hls (i + 1) lineNum).2 k2 (by simpa using hk)]
          have h2 : i + 1 + k2 = i + (k2 + 1) := by omega
          rw [h2]
    | code line =>
      simp only [renderGo, Bool.false_eq_true, if_false]
      by_cases hctn : goContains line (str "lines skipped") = true
      · rw [if_pos hctn]
        constructor
        · simp only [List.length_cons, (ih hls (i + 1) lineNum).1]
        · intro k hk
          cases k with
          | zero =>
            simp only [List.getD_cons_zero, renderEntryModel]
            rw [if_pos hctn]
          | succ k2 =>
            simp only [List.getD_cons_succ]
            rw [(ih hls (i + 1) lineNum).2 k2 (by simpa using hk)]
            have h2 : i + 1 + k2 = i + (k2 + 1) := by omega
            rw [h2]
      · rw [if_neg hctn]
        constructor
        · simp only [List.length_cons, (ih hls (i + 1) (lineNum + 1)).1]
        · intro k hk
          cases k with
          | zero =>
            simp only [List.getD_cons_zero, renderEntryModel]
            rw [if_neg hctn]
            have hz : i + 0 = i := by omega
            rw [hz]
            cases har : hls.any (fun hl => decide (hl = (i : Int))) with
            | false => rfl
            | true => rfl
          | succ k2 =>
            simp only [List.getD_cons_succ]
            rw [(ih hls (i + 1) (lineNum + 1)).2 k2 (by simpa using hk)]
            have h2 : i + 1 + k2 = i + (k2 + 1) := by omega
            rw [h2]

/-- Index 0 is always in the keep-set (among the first five lines). -/
theorem isImportant_zero (n : Nat) (hls : List Int) : isImportant n hls 0 = true := by
  simp [isImportant]

/-- Unfolding the first step of the truncation on a non-empty scope: line
0 is always kept, so the loop starts with its code line and map entry. -/
theorem truncFull_eq (scopeLines : List GoStr) (hls : List Int)
    (h : 0 < scopeLines.length) :
    truncGo scopeLines (isImportant scopeLines.length hls)
        (List.range scopeLines.length) false (-1) 0 =
      (TruncLine.code (scopeLines.getD 0 []) ::
         (truncGo scopeLines (isImportant scopeLines.length hls)
           (List.range' 1 (scopeLines.length - 1)) false ((0 : Nat) : Int) 1).1,
       (0, 0) ::
         (truncGo scopeLines (isImportant scopeLines.length hls)
           (List.range' 1 (scopeLines.length - 1)) false ((0 : Nat) : Int) 1).2) := by
  obtain ⟨m, hm⟩ : ∃ m, scopeLines.length = m + 1 := ⟨scopeLines.length - 1, by omega⟩
  rw [hm]
  simp only [Nat.add_sub_cancel]
  rw [List.range_eq_range', List.range'_succ]
  simp only [truncGo]
  rw [if_pos (isImportant_zero _ _), if_neg (by simp)]

/-- C4: a scope of at most 50 lines passes through the truncation
unchanged and renders with one output line per original line, each ending
with that line; a scope of more than 50 lines keeps exactly the keep-set
lines (first 5, last 3, highlight ±2) in order, and the number of kept
code lines plus the skip-marker counts equals the original line count. -/
theorem truncateScope_spec (scopeLines : List GoStr) (highlightLines : List Int) :
    (scopeLines.length ≤ 50 →
      (truncateScope scopeLines highlightLines).1 = scopeLines.map TruncLine.code ∧
      ∀ startLine,
        (renderScope (scopeLines.map TruncLine.code) highlightLines
          startLine false).length = scopeLines.length ∧
        ∀ k, k < scopeLines.length →
          ∃ pre, (renderScope (scopeLines.map TruncLine.code) highlightLines
            startLine false).getD k [] = pre ++ scopeLines.getD k []) ∧
    (scopeLines.length > 50 →
      codeLines (truncateScope scopeLines highlightLines).1 =
        ((List.range scopeLines.length).filter
          (isImportant scopeLines.length highlightLines)).map
          (fun i => scopeLines.getD i []) ∧
      codeCount (truncateScope scopeLines highlightLines).1 +
        skipSum (truncateScope scopeLines highlightLines).1 = scopeLines.length) := by
  constructor
  · intro hle
    constructor
    · simp only [truncateScope]
      rw [if_neg (by omega)]
    · intro startLine
      have hr := renderGo_false_spec (scopeLines.map TruncLine.code)
        highlightLines 0 (startLine + 1)
      constructor
      · rw [renderScope, hr.1, List.length_map]
      · intro k hk
        rw [renderScope, hr.2 k (by simpa using hk)]
        have hget : (scopeLines.map TruncLine.code).getD k (.skip 0) =
            TruncLine.code (scopeLines.getD k []) := by
          rw [List.getD_eq_getElem?_getD, List.getElem?_map,
            List.getD_eq_getElem?_getD]
          cases hx : scopeLines[k]? with
          | none =>
            rw [List.getElem?_eq_none_iff] at hx
            omega
          | some v => rfl
        rw [hget]
        simp only [renderEntryModel]
        by_cases hctn : goContains (scopeLines.getD k []) (str "lines skipped") = true
        · refine ⟨[], ?_⟩
          rw [if_pos hctn, List.nil_append]
        · rw [if_neg hctn]
          by_cases har : highlightLines.any
              (fun hl => decide (hl = ((0 + k : Nat) : Int))) = true
          · exact ⟨str "> ", by rw [if_pos har]⟩
          · exact ⟨str "  ", by rw [if_neg har]⟩
  · intro hgt
    have h0 : 0 < scopeLines.length := by omega
    obtain ⟨T1, T2, T3, T4⟩ := truncGo_spec scopeLines
      (isImportant scopeLines.length highlightLines)
      (scopeLines.length - 1) 1 0 1 false ((decide_eq_false (by omega)).symm)
      (by omega) (by omega) (isImportant_zero _ _)
      (fun k hk1 hk2 => absurd hk1 (by omega))
    have hts : (truncateScope scopeLines highlightLines).1 =
        TruncLine.code (scopeLines.getD 0 []) ::
          (truncGo scopeLines (isImportant scopeLines.length highlightLines)
            (List.range' 1 (scopeLines.length - 1)) false ((0 : Nat) : Int) 1).1 := by
      simp only [truncateScope]
      rw [if_pos hgt]
      rw [truncFull_eq scopeLines highlightLines h0]
    constructor
    · rw [hts]
      simp only [codeLines]
      rw [T1]
      have hrng : List.range scopeLines.length =
          0 :: List.range' 1 (scopeLines.length - 1) := by
        obtain ⟨m, hm⟩ : ∃ m, scopeLines.length = m + 1 := ⟨scopeLines.length - 1, by omega⟩
        rw [hm]
        simp only [Nat.add_sub_cancel]
        rw [List.range_eq_range', List.range'_succ]
      rw [hrng, List.filter_cons_of_pos (isImportant_zero _ _), List.map_cons]
    · rw [hts]
      show codeCount (TruncLine.code _ :: _) + skipSum (TruncLine.code _ :: _) = _
      simp only [codeCount, codeLines, skipSum, List.length_cons]
      simp only [codeCount, codeLines] at T2
      omega

/-- C5 (amended): after truncating a scope of more than 50 lines, the
index map's keys are exactly the kept original indices (offsets of elided
lines are dropped), each key is remapped to its line's index within the
truncated line list (an index counting skip markers), the final highlight
offsets are the remapped kept offsets, and in the rendered output the
`>` marker appears exactly on the remapped highlight lines — provided the
line's text does not contain the substring `"lines skipped"`, which the
renderer mistakes for a skip marker and prints without any marker (see
the counterexample). -/
theorem truncateScope_highlight_spec (scopeLines : List GoStr)
    (highlightLines : List Int) (h : scopeLines.length > 50) :
    ((truncMapOf scopeLines highlightLines).map Prod.fst =
      (List.range scopeLines.length).filter
        (isImportant scopeLines.length highlightLines)) ∧
    (∀ p ∈ truncMapOf scopeLines highlightLines,
      (truncateScope scopeLines highlightLines).1.getD p.2 (.skip 0) =
        TruncLine.code (scopeLines.getD p.1 [])) ∧
    ((truncateScope scopeLines highlightLines).2 =
      highlightLines.filterMap
        (fun hl => (assocLookup (truncMapOf scopeLines highlightLines) hl).map
          (fun t => (t : Int)))) ∧
    (∀ startLine k line,
      (truncateScope scopeLines highlightLines).1.getD k (.skip 0) =
        TruncLine.code line →
      k < (truncateScope scopeLines highlightLines).1.length →
      goContains line (str "lines skipped") = false →
      (renderScope (truncateScope scopeLines highlightLines).1
          (truncateScope scopeLines highlightLines).2 startLine false).getD k [] =
        if (k : Int) ∈ (truncateScope scopeLines highlightLines).2
        then str "> " ++ line else str "  " ++ line) := by
  have h0 : 0 < scopeLines.length := by omega
  obtain ⟨T1, T2, T3, T4⟩ := truncGo_spec scopeLines
    (isImportant scopeLines.length highlightLines)
    (scopeLines.length - 1) 1 0 1 false ((decide_eq_false (by omega)).symm)
    (by omega) (by omega) (isImportant_zero _ _)
    (fun k hk1 hk2 => absurd hk1 (by omega))
  have hmap : truncMapOf scopeLines highlightLines =
      (0, 0) :: (truncGo scopeLines (isImportant scopeLines.length highlightLines)
        (List.range' 1 (scopeLines.length - 1)) false ((0 : Nat) : Int) 1).2 := by
    rw [truncMapOf, truncFull_eq scopeLines highlightLines h0]
  have hts : (truncateScope scopeLines highlightLines).1 =
      TruncLine.code (scopeLines.getD 0 []) ::
        (truncGo scopeLines (isImportant scopeLines.length highlightLines)
          (List.range' 1 (scopeLines.length - 1)) false ((0 : Nat) : Int) 1).1 := by
    simp only [truncateScope]
    rw [if_pos h]
    rw [truncFull_eq scopeLines highlightLines h0]
  refine ⟨?_, ?_, ?_, ?_⟩
  · rw [hmap, List.map_cons, T3]
    have hrng : List.range scopeLines.length =
        0 :: List.range' 1 (scopeLines.length - 1) := by
      obtain ⟨m, hm⟩ : ∃ m, scopeLines.length = m + 1 := ⟨scopeLines.length - 1, by omega⟩
      rw [hm]
      simp only [Nat.add_sub_cancel]
      rw [List.range_eq_range', List.range'_succ]
    rw [hrng, List.filter_cons_of_pos (isImportant_zero _ _)]
  · intro p hp
    rw [hmap] at hp
    rw [hts]
    rcases List.mem_cons.mp hp with rfl | hp2
    · rfl
    · obtain ⟨hle, hgd⟩ := T4 p hp2
      have harith : p.2 = p.2 - 1 + 1 := by omega
      rw [harith, List.getD_cons_succ]
      exact hgd
  · simp only [truncateScope, truncMapOf]
    rw [if_pos h]
  · intro startLine k line hline hk hctn
    rw [renderScope, (renderGo_false_spec _ _ 0 (startLine + 1)).2 k hk, hline]
    simp only [renderEntryModel, Nat.zero_add]
    rw [if_neg (by rw [hctn]; simp)]
    by_cases har : ((truncateScope scopeLines highlightLines).2).any
        (fun hl => decide (hl = (k : Int))) = true
    · rw [if_pos har, if_pos ((anyEqMem _ _).mp har)]
    · rw [if_neg har, if_neg (fun hmem => har ((anyEqMem _ _).mpr hmem))]

/-- A 51-line scope of identical lines, for the C4 and C5 witnesses. -/
def uniformScope : List GoStr := (List.range 51).map (fun _ => str "line")

/-- A 51-line scope whose line 10 contains the text `lines skipped`, for
the C5 counterexample. -/
def quirkScope : List GoStr :=
  (List.range 51).map (fun i => if i = 10 then str "x // lines skipped" else str "line")

/-- Witness for C4: on a 51-line scope with a highlight at offset 20 the
kept lines plus skipped counts add up to 51, and a 2-line scope passes
through truncation unchanged. -/
theorem truncateScope_spec_witness :
    codeCount (truncateScope uniformScope [20]).1 +
      skipSum (truncateScope uniformScope [20]).1 = 51 ∧
    (truncateScope [str "a", str "b"] [0]).1 =
      [TruncLine.code (str "a"), TruncLine.code (str "b")] := by
  constructor
  · have h := ((truncateScope_spec uniformScope [20]).2 (by decide)).2
    rw [h]
    decide
  · have h := ((truncateScope_spec [str "a", str "b"] [0]).1 (by decide)).1
    rw [h]
    decide

/-- Witness for C5: on the 51-line uniform scope with a highlight at
offset 20, the offset is remapped to truncated index 8 and that line is
rendered with the `>` marker. -/
theorem truncateScope_highlight_spec_witness :
    (renderScope (truncateScope uniformScope [20]).1
        (truncateScope uniformScope [20]).2 0 false).getD 8 [] = str "> line" := by
  have h := (truncateScope_highlight_spec uniformScope [20] (by decide)).2.2.2
    0 8 (str "line") (by decide) (by decide) (by decide)
  rw [h]
  decide

/-- C5 counterexample: in the 51-line scope whose line 10 reads
`x // lines skipped`, highlight offset 10 is remapped to truncated index
8, but the renderer mistakes that code line for a skip marker and prints
it without the `>` marker — so the `>` marker does not appear on every
remapped highlight line. -/
theorem renderScope_quirk_counterexample :
    (truncateScope quirkScope [10]).2 = [8] ∧
    (truncateScope quirkScope [10]).1.getD 8 (.skip 0) =
      TruncLine.code (str "x // lines skipped") ∧
    (renderScope (truncateScope quirkScope [10]).1
        (truncateScope quirkScope [10]).2 0 false).getD 8 [] =
      str "x // lines skipped" ∧
    goHasPre ((renderScope (truncateScope quirkScope [10]).1
        (truncateScope quirkScope [10]).2 0 false).getD 8 []) (str "> ") = false := by
  refine ⟨?_, ?_, ?_, ?_⟩ <;> decide

/- ---------------------------------------------------------------------
C2: the debounce coalescer (src/internal/watcher/watcher.go lines
460-481).  The mutex-serialised operations on the debounce map are
modelled as a transition system: `schedule` embeds one call of
debounceHandleFileEvent (stop any pending timer for the key, install a
fresh one), and `fireTimer` embeds the `time.AfterFunc` callback firing
within the debounce window: it dispatches (runs handleFileEvent) and
deletes its own entry only if it is still the pending timer for its key —
a timer that was stopped and replaced is identified by its stale
generation and does nothing.  Real time is abstracted away: "within the
window" means the superseded timer was stopped before firing. -/

/-- The debounce key `fmt.Sprintf("%s:%d", uri, changeType)`. -/
def debounceKey (uri : GoStr) (changeType : Nat) : GoStr :=
  uri ++ str ":" ++ natToStr changeType

/-- The state of the debounce coalescer: the pending timer generation per
key (the Go map `debounceMap`), a fresh-generation counter, and the count
of dispatched notifications per key (abstracting handleFileEvent). -/
structure DebounceState where
  pending : GoStr → Option Nat
  nextId : Nat
  dispatched : GoStr → Nat

/-- The initial state: an empty debounce map. -/
def initDebounce : DebounceState :=
  ⟨fun _ => none, 0, fun _ => 0⟩

/-- debounceHandleFileEvent (watcher.go lines 460-481): stop the pending
timer for the key, if any, and install a fresh timer of the full delay. -/
def schedule (s : DebounceState) (key : GoStr) : DebounceState :=
  { pending := fun k => if k = key then some s.nextId else s.pending k
    nextId := s.nextId + 1
    dispatched := s.dispatched }

/-- The timer callback (watcher.go lines 473-480) firing within the
debounce window: if the timer is still the live one for its key it runs
handleFileEvent and deletes its own map entry; a stopped (superseded)
timer does nothing. -/
def fireTimer (s : DebounceState) (key : GoStr) (tid : Nat) : DebounceState :=
  if s.pending key = some tid then
    { pending := fun k => if k = key then none else s.pending k
      nextId := s.nextId
      dispatched := fun k => if k = key then s.dispatched k + 1 else s.dispatched k }
  else s

/-- Repeated schedule calls for one key in a row (a burst within the window). -/
def scheduleN (s : DebounceState) (key : GoStr) : Nat → DebounceState
  | 0 => s
  | n + 1 => schedule (scheduleN s key n) key

/-- After a burst the pending timer is the freshest generation and the
counter advanced by the burst length. -/
theorem scheduleN_pending (s : DebounceState) (key : GoStr) (n : Nat) (h : 1 ≤ n) :
    (scheduleN s key n).pending key = some (s.nextId + n - 1) ∧
    (scheduleN s key n).nextId = s.nextId + n ∧
    (scheduleN s key n).dispatched = s.dispatched := by
  induction n with
  | zero => omega
  | succ m ih =>
    by_cases hm : 1 ≤ m
    · obtain ⟨h1, h2, h3⟩ := ih hm
      refine ⟨?_, ?_, h3⟩
      · show (if key = key then some (scheduleN s key m).nextId else _) = _
        rw [if_pos rfl, h2]
        congr 1
      · show (scheduleN s key m).nextId + 1 = _
        omega
    · have hm0 : m = 0 := by omega
      subst hm0
      refine ⟨?_, rfl, rfl⟩
      show (if key = key then some s.nextId else _) = _
      rw [if_pos rfl]
      congr 1

/-- A schedule call leaves other keys alone. -/
theorem schedule_other (s : DebounceState) (key k2 : GoStr) (h : k2 ≠ key) :
    (schedule s key).pending k2 = s.pending k2 ∧
    (schedule s key).dispatched k2 = s.dispatched k2 :=
  ⟨by show (if k2 = key then _ else _) = _; rw [if_neg h], rfl⟩

/-- C2: the debounce map holds at most one live timer per key — after a
burst of `n ≥ 1` schedule calls for one key, only the last-installed
timer is pending; firing any superseded (stopped) timer changes nothing;
firing the live timer dispatches exactly one notification and deletes the
key's entry; and keys are independent: a burst for one key leaves every
other key's pending timer and dispatch count unchanged. -/
theorem debounce_spec (s : DebounceState) (key : GoStr) (n : Nat) (h : 1 ≤ n) :
    ((scheduleN s key n).pending key = some (s.nextId + n - 1)) ∧
    (∀ t, t ≠ s.nextId + n - 1 → fireTimer (scheduleN s key n) key t = scheduleN s key n) ∧
    ((fireTimer (scheduleN s key n) key (s.nextId + n - 1)).dispatched key =
      s.dispatched key + 1) ∧
    ((fireTimer (scheduleN s key n) key (s.nextId + n - 1)).pending key = none) ∧
    (∀ k2, k2 ≠ key → (scheduleN s key n).pending k2 = s.pending k2 ∧
      (scheduleN s key n).dispatched k2 = s.dispatched k2 ∧
      (fireTimer (scheduleN s key n) key (s.nextId + n - 1)).pending k2 =
        (scheduleN s key n).pending k2 ∧
      (fireTimer (scheduleN s key n) key (s.nextId + n - 1)).dispatched k2 =
        (scheduleN s key n).dispatched k2) := by
  obtain ⟨hp, hcnt, hd⟩ := scheduleN_pending s key n h
  refine ⟨hp, ?_, ?_, ?_, ?_⟩
  · intro t ht
    rw [fireTimer, if_neg (by rw [hp]; simp; omega)]
  · rw [fireTimer, if_pos hp]
    show (if key = key then _ + 1 else _) = _
    rw [if_pos rfl, hd]
  · rw [fireTimer, if_pos hp]
    show (if key = key then none else _) = _
    rw [if_pos rfl]
  · intro k2 hk2
    have hother : ∀ m, (scheduleN s key m).pending k2 = s.pending k2 ∧
        (scheduleN s key m).dispatched k2 = s.dispatched k2 := by
      intro m
      induction m with
      | zero => exact ⟨rfl, rfl⟩
      | succ m2 ih =>
        obtain ⟨ih1, ih2⟩ := ih
        exact ⟨by show (if k2 = key then _ else _) = _; rw [if_neg hk2]; exact ih1, ih2⟩
    obtain ⟨ho1, ho2⟩ := hother n
    refine ⟨ho1, ho2, ?_, ?_⟩
    · rw [fireTimer, if_pos hp]
      show (if k2 = key then none else _) = _
      rw [if_neg hk2]
    · rw [fireTimer, if_pos hp]
      show (if k2 = key then _ else _) = _
      rw [if_neg hk2]

/-- Witness for C2: a burst of three change events for one file dispatches
exactly once, the two superseded timers are no-ops, and the entry is
removed after the dispatch. -/
theorem debounce_spec_witness :
    (scheduleN initDebounce (debounceKey (str "file:///a.go") 2) 3).pending
      (debounceKey (str "file:///a.go") 2) = some 2 ∧
    fireTimer (scheduleN initDebounce (debounceKey (str "file:///a.go") 2) 3)
      (debounceKey (str "file:///a.go") 2) 0 =
      scheduleN initDebounce (debounceKey (str "file:///a.go") 2) 3 ∧
    (fireTimer (scheduleN initDebounce (debounceKey (str "file:///a.go") 2) 3)
      (debounceKey (str "file:///a.go") 2) 2).dispatched
      (debounceKey (str "file:///a.go") 2) = 1 ∧
    (fireTimer (scheduleN initDebounce (debounceKey (str "file:///a.go") 2) 3)
      (debounceKey (str "file:///a.go") 2) 2).pending
      (debounceKey (str "file:///a.go") 2) = none := by
  obtain ⟨h1, h2, h3, h4, _⟩ :=
    debounce_spec initDebounce (debounceKey (str "file:///a.go") 2) 3 (by omega)
  exact ⟨h1, h2 0 (by omega), h3, h4⟩

/- ---------------------------------------------------------------------
C9: the tool-facing not-found behaviour.  Each tool is embedded from the
point where the client responses are in hand: the responses (and the
GetFullDefinition text fetch inside ReadDefinition, which itself talks to
the client) enter as `Except` parameters; an `.error` input models a
request to the external client failing (the fetch or parse error paths).
Output formatting outside the not-found contract (headers, line numbers)
is elided.
--------------------------------------------------------------------- -/

/-- protocol.Location. -/
structure LspLocation where
  uri : GoStr
  range : LspRange
deriving DecidableEq, Repr

/-- One workspace/symbol result: a SymbolInformation (with kind and
container) or any other result shape (the `default` case of the switch in
ReadDefinition). -/
inductive WorkspaceSymbolEntry where
  | symbolInformation (name : GoStr) (kind : Nat) (containerName : GoStr)
      (loc : LspLocation)
  | workspaceSymbol (name : GoStr) (loc : LspLocation)
deriving DecidableEq, Repr

/-- The `GetName()` accessor of a workspace symbol result. -/
def WorkspaceSymbolEntry.getName : WorkspaceSymbolEntry → GoStr
  | .symbolInformation n _ _ _ => n
  | .workspaceSymbol n _ => n

/-- The `GetLocation()` accessor of a workspace symbol result. -/
def WorkspaceSymbolEntry.getLocation : WorkspaceSymbolEntry → LspLocation
  | .symbolInformation _ _ _ l => l
  | .workspaceSymbol _ l => l

/-- The location validity check of FindReferences
(find-references.go line 249): a location with an empty URI, or an
all-zero range, is skipped. -/
def validSymbolLocation (loc : LspLocation) : Bool :=
  !(loc.uri.isEmpty ||
    (decide (loc.range.start.line = 0) && decide (loc.range.start.character = 0) &&
     decide (loc.range.endPos.line = 0) && decide (loc.range.endPos.character = 0)))

/-- Stage 1 of FindReferences (find-references.go lines 241-257): collect
the locations of exact-name matches, skipping invalid locations and
duplicates (`seen` is the processedLocations set). -/
def uniqueLocations (results : List WorkspaceSymbolEntry) (symbolName : GoStr)
    (seen : List LspLocation) : List LspLocation :=
  match results with
  | [] => []
  | sym :: rest =>
    if sym.getName ≠ symbolName then uniqueLocations rest symbolName seen
    else if validSymbolLocation sym.getLocation = false then
      uniqueLocations rest symbolName seen
    else if seen.contains sym.getLocation then uniqueLocations rest symbolName seen
    else sym.getLocation :: uniqueLocations rest symbolName (sym.getLocation :: seen)

/-- The outcome of FindReferences up to its not-found early return
(find-references.go lines 230-260): `.error` for a failed symbol request
(or parse), `.ok (some msg)` for the not-found early return, `.ok none`
when the pipeline proceeds to the reference stages. -/
def findReferencesStage (symbolsResp : Except GoStr (List WorkspaceSymbolEntry))
    (symbolName : GoStr) : Except GoStr (Option GoStr) :=
  match symbolsResp with
  | .error e => .error (str "Failed to fetch symbol: " ++ e)
  | .ok results =>
    if (uniqueLocations results symbolName []).isEmpty then
      .ok (some (str "Symbol definition not found for: " ++ symbolName))
    else .ok none

/-- The outcome of GetDiagnosticsForFile up to its no-diagnostics return
(diagnostics.go lines 17-43): a failed OpenFile is a hard error; a failed
Diagnostic request is only logged; an empty diagnostics cache yields the
no-diagnostics message with a nil error. -/
def getDiagnosticsOutcome {α : Type} (openResult : Except GoStr Unit)
    (diagResult : Except GoStr Unit) (cachedDiagnostics : List α)
    (filePath : GoStr) : Except GoStr (Option GoStr) :=
  match openResult, diagResult with
  | .error e, _ => .error (str "could not open file: " ++ e)
  | .ok _, _ =>
    if cachedDiagnostics.isEmpty then
      .ok (some (str "No diagnostics found for " ++ filePath))
    else .ok none

/-- The symbol filter of ReadDefinition (part_002 lines 33-49): a
SymbolInformation is accepted when it is a Method (kind 6) whose name
ends with the requested name, or when the name matches exactly; any other
result shape is accepted only on an exact name match. -/
def matchesReadDefFilter (sym : WorkspaceSymbolEntry) (symbolName : GoStr) : Bool :=
  match sym with
  | .symbolInformation name kind _ _ =>
    (decide (kind = 6) && goHasSuf name symbolName) || decide (name = symbolName)
  | .workspaceSymbol name _ => decide (name = symbolName)

/-- The outcome of ReadDefinition (part_002): collect the definition text
of every accepted symbol via `getDef` (abstracting GetFullDefinition's
client interaction; its failures are logged and skipped), and fall back
to the `"<name> not found"` message with a nil error when nothing was
collected. -/
def readDefinitionOutcome (symbolsResp : Except GoStr (List WorkspaceSymbolEntry))
    (getDef : LspLocation → Except GoStr GoStr) (symbolName : GoStr) :
    Except GoStr GoStr :=
  match symbolsResp with
  | .error e => .error (str "Failed to fetch symbol: " ++ e)
  | .ok results =>
    let definitions := results.filterMap (fun sym =>
      if matchesReadDefFilter sym symbolName then
        match getDef sym.getLocation with
        | .ok text => some text
        | .error _ => none
      else none)
    if definitions.isEmpty then .ok (symbolName ++ str " not found")
    else .ok (List.intercalate (str "\n\n") definitions)

/-- With no exact-name match, stage 1 collects no locations. -/
theorem uniqueLocations_nil (results : List WorkspaceSymbolEntry)
    (symbolName : GoStr) (h : ∀ sym ∈ results, sym.getName ≠ symbolName) :
    ∀ seen, uniqueLocations results symbolName seen = [] := by
  induction results with
  | nil => intro seen; rfl
  | cons sym rest ih =>
    intro seen
    rw [uniqueLocations,
      if_pos (h sym (List.mem_cons_self _ _))]
    exact ih (fun s hs => h s (List.mem_cons_of_mem _ hs)) seen

/-- C9 (amended): when every request to the external client succeeds but
nothing matches, the tool-facing queries return a descriptive message
with a nil error — for FindReferences when no workspace symbol has the
exact requested name, for GetDiagnosticsForFile when the diagnostics
cache is empty (even if the diagnostic request itself failed, which is
only logged), and for ReadDefinition when no symbol passes its filter,
which accepts the exact name or a Method symbol whose name merely ends
with the requested name (see the counterexample for the latter); a
non-nil error is returned only when a client request fails. -/
theorem notFoundOutcomes_spec {α : Type}
    (results : List WorkspaceSymbolEntry) (symbolName : GoStr)
    (getDef : LspLocation → Except GoStr GoStr)
    (openResult diagResult : Except GoStr Unit) (cached : List α)
    (filePath : GoStr) (symbolsResp : Except GoStr (List WorkspaceSymbolEntry)) :
    ((∀ sym ∈ results, sym.getName ≠ symbolName) →
      findReferencesStage (.ok results) symbolName =
        .ok (some (str "Symbol definition not found for: " ++ symbolName))) ∧
    (openResult = .ok () → cached = [] →
      getDiagnosticsOutcome openResult diagResult cached filePath =
        .ok (some (str "No diagnostics found for " ++ filePath))) ∧
    ((∀ sym ∈ results, matchesReadDefFilter sym symbolName = false) →
      readDefinitionOutcome (.ok results) getDef symbolName =
        .ok (symbolName ++ str " not found")) ∧
    (∀ e, findReferencesStage symbolsResp symbolName = .error e →
      symbolsResp.isOk = false) ∧
    (∀ e, getDiagnosticsOutcome openResult diagResult cached filePath = .error e →
      openResult.isOk = false) ∧
    (∀ e, readDefinitionOutcome symbolsResp getDef symbolName = .error e →
      symbolsResp.isOk = false) := by
  refine ⟨?_, ?_, ?_, ?_, ?_, ?_⟩
  · intro h
    rw [findReferencesStage, uniqueLocations_nil results symbolName h []]
    rfl
  · intro hopen hcache
    subst hopen
    subst hcache
    rfl
  · intro h
    rw [readDefinitionOutcome]
    have hnil : results.filterMap (fun sym =>
        if matchesReadDefFilter sym symbolName = true then
          match getDef sym.getLocation with
          | .ok text => some text
          | .error _ => none
        else none) = [] := by
      rw [List.filterMap_eq_nil_iff]
      intro sym hs
      rw [if_neg (by rw [h sym hs]; simp)]
    rw [hnil]
    rfl
  · intro e herr
    cases symbolsResp with
    | error e2 => rfl
    | ok results2 =>
      rw [findReferencesStage] at herr
      split at herr <;> cases herr
  · intro e herr
    cases openResult with
    | error e2 => rfl
    | ok u =>
      rw [getDiagnosticsOutcome] at herr
      split at herr <;> cases herr
  · intro e herr
    cases symbolsResp with
    | error e2 => rfl
    | ok results2 =>
      rw [readDefinitionOutcome] at herr
      split at herr <;> cases herr

/-- A sample symbol location for the C9 counterexample and witness. -/
def exMethodLoc : LspLocation := ⟨str "file:///x.go", ⟨⟨3, 0⟩, ⟨10, 1⟩⟩⟩

/-- C9 counterexample: with a single Method SymbolInformation named
`Foo.Bar` and requested name `Bar` — no symbol with the exact requested
name, and every request succeeding — ReadDefinition does not return the
not-found message: the Method-suffix rule accepts the symbol and its
definition text is returned. -/
theorem readDefinition_suffix_counterexample :
    (WorkspaceSymbolEntry.symbolInformation (str "Foo.Bar") 6 (str "")
      exMethodLoc).getName ≠ str "Bar" ∧
    readDefinitionOutcome
      (.ok [WorkspaceSymbolEntry.symbolInformation (str "Foo.Bar") 6 (str "")
        exMethodLoc])
      (fun _ => .ok (str "func (f Foo) Bar() int")) (str "Bar") =
      .ok (str "func (f Foo) Bar() int") ∧
    str "func (f Foo) Bar() int" ≠ str "Bar" ++ str " not found" := by
  refine ⟨by decide, rfl, by decide⟩

/-- Witness for C9 on concrete inputs: an unrelated symbol list yields the
not-found messages with nil errors for FindReferences and ReadDefinition,
and an empty diagnostics cache yields the no-diagnostics message even
though the diagnostic request failed. -/
theorem notFoundOutcomes_spec_witness :
    findReferencesStage
      (.ok [WorkspaceSymbolEntry.workspaceSymbol (str "Other") exMethodLoc])
      (str "Foo") = .ok (some (str "Symbol definition not found for: Foo")) ∧
    getDiagnosticsOutcome (.ok ()) (.error (str "boom")) ([] : List Nat)
      (str "/a.go") = .ok (some (str "No diagnostics found for /a.go")) ∧
    readDefinitionOutcome
      (.ok [WorkspaceSymbolEntry.workspaceSymbol (str "Other") exMethodLoc])
      (fun _ => .ok (str "x")) (str "Foo") = .ok (str "Foo not found") := by
  obtain ⟨h1, h2, h3, _, _, _⟩ := notFoundOutcomes_spec
    [WorkspaceSymbolEntry.workspaceSymbol (str "Other") exMethodLoc] (str "Foo")
    (fun _ => .ok (str "x")) (.ok ()) (.error (str "boom")) ([] : List Nat)
    (str "/a.go") (.ok [])
  refine ⟨?_, ?_, ?_⟩
  · rw [h1 (by decide),
      show str "Symbol definition not found for: " ++ str "Foo" =
        str "Symbol definition not found for: Foo" from by decide]
  · rw [h2 rfl rfl,
      show str "No diagnostics found for " ++ str "/a.go" =
        str "No diagnostics found for /a.go" from by decide]
  · rw [h3 (by decide),
      show str "Foo" ++ str " not found" = str "Foo not found" from by decide]
